import Mathlib

/-!
Shallow embedding of the uftrace TUI core (cmds/tui.c) and proofs about it.

The embedding models:
  * the aggregated report statistics (struct tui_report_node) and their
    finalization (prepare_report_node, cmp_report_node, sort_report_node,
    sort_tui_report);
  * the per-exit record processing of build_tui_node (min/max bookkeeping and
    the self-recursion scan over the live call stack);
  * the graph-node tree (struct tui_graph_node) with its traversal
    (graph_prev_node / graph_next_node), folding (fold_graph_node,
    win_collapse_graph / win_expand_graph), the partial-graph synthesis
    (append_graph_node / copy_graph_node / build_partial-graph body) and the
    special-section classification (is_special_node, win_display_graph);
  * the generic window engine (tui_window_move_up / tui_window_move_down /
    tui_window_move_prev / tui_window_move_next) over an abstract view
    sequence, and the report view's navigation primitives.

C's uint64_t / unsigned arithmetic is modelled as Nat with explicit reduction
modulo 2^64 / 2^32.  Red-black tree rebalancing (rb_insert_color) and the
in-order iteration primitives (rb_first / rb_next / rb_prev) live in
utils/rbtree.c, which is not part of the analysed sources; following the
spec ("any ordered-map/balanced-tree structure suffices", in-order traversal
for the ranking tree), insertion is modelled as plain binary-search-tree
insertion with the comparison and descent taken verbatim from tui.c -- a
red-black rebalance only rotates and therefore preserves the in-order
sequence, which is the only thing the theorems below talk about.
-/

/-- 2^64, the modulus of C uint64_t arithmetic. -/
def w64 : Nat := 2 ^ 64

/-- 2^32, the modulus of C unsigned (int) arithmetic. -/
def w32 : Nat := 2 ^ 32

/-- uint64_t addition. -/
def add64 (a b : Nat) : Nat := (a + b) % w64

/-- uint64_t subtraction (two's complement wrap-around). -/
def sub64 (a b : Nat) : Nat := (a + (w64 - b % w64)) % w64

/-- unsigned 32-bit addition. -/
def add32 (a b : Nat) : Nat := (a + b) % w32

/-- One graph-node occurrence as seen by the report aggregation: the
time / child_time / nr_calls fields of a struct uftrace_graph_node that is
linked on a tui_report_node's occurrence list. -/
structure GOcc where
  time : Nat
  child_time : Nat
  nr_calls : Nat
deriving DecidableEq, Repr

/-- The statistics fields of struct tui_report_node. -/
structure ReportStats where
  time : Nat
  min_time : Nat
  max_time : Nat
  self_time : Nat
  min_self_time : Nat
  max_self_time : Nat
  recursive_time : Nat
  calls : Nat
deriving DecidableEq, Repr

/-- A freshly xzalloc'ed tui_report_node's statistics. -/
def zeroStats : ReportStats := ⟨0, 0, 0, 0, 0, 0, 0, 0⟩

/-- Body of the list_for_each_entry loop in prepare_report_node. -/
def prepare_step (s : ReportStats) (gn : GOcc) : ReportStats :=
  { s with
    time := add64 s.time gn.time
    self_time := add64 s.self_time (sub64 gn.time gn.child_time)
    calls := add32 s.calls gn.nr_calls }

/-- prepare_report_node: accumulate every linked occurrence's inclusive time,
self time and call count, then subtract the accumulated recursive time from
the total. -/
def prepare_report_node (occs : List GOcc) (s : ReportStats) : ReportStats :=
  let s1 := occs.foldl prepare_step s
  { s1 with time := sub64 s1.time s1.recursive_time }

/-- Sum of the occurrences' inclusive times. -/
def sumTime (occs : List GOcc) : Nat := (occs.map GOcc.time).sum

/-- Sum of the occurrences' self times (inclusive minus child-inclusive). -/
def sumSelf (occs : List GOcc) : Nat :=
  (occs.map (fun g => g.time - g.child_time)).sum

/-- Sum of the occurrences' call counts. -/
def sumCalls (occs : List GOcc) : Nat := (occs.map GOcc.nr_calls).sum

/-- A report node as fed to the ranking pass: its name, its linked occurrence
list and its statistics (recursive_time and the min/max fields were filled
during trace ingestion; time / self_time / calls are still zero). -/
structure RNode where
  name : String
  occs : List GOcc
  stats : ReportStats
deriving DecidableEq, Repr

/-- cmp_report_node: order by total time, larger first; the tie-break sort
key is not implemented (the C source carries a TODO there). -/
def cmp_report_node (a b : RNode) : Int :=
  if a.stats.time ≠ b.stats.time then
    (if a.stats.time > b.stats.time then 1 else -1)
  else 0

/-- The ranking (sort_link) tree.  rb_insert_color only rebalances, so the
in-order sequence is fully determined by the descent in sort_report_node,
which is modelled verbatim. -/
inductive SortTree where
  | nil : SortTree
  | node : SortTree → RNode → SortTree → SortTree
deriving DecidableEq, Repr

/-- The descent loop of sort_report_node: at an existing node iter, go left
when cmp_report_node(iter, node) < 0, otherwise go right. -/
def sort_insert : SortTree → RNode → SortTree
  | .nil, x => .node .nil x .nil
  | .node l v r, x =>
    if cmp_report_node v x < 0 then .node (sort_insert l x) v r
    else .node l v (sort_insert r x)

/-- prepare_report_node applied to a report node (the call at the top of
sort_report_node). -/
def prepareR (r : RNode) : RNode :=
  { r with stats := prepare_report_node r.occs r.stats }

/-- sort_report_node: finalize the node's statistics, then insert it into the
ranking tree. -/
def sort_report_node (t : SortTree) (r : RNode) : SortTree :=
  sort_insert t (prepareR r)

/-- sort_tui_report: walk the name tree in order (modelled as the input list)
and insert every node into the ranking tree. -/
def sort_tui_report (ns : List RNode) : SortTree :=
  ns.foldl sort_report_node .nil

/-- In-order walk of the ranking tree (what rb_first / rb_next iterate). -/
def inorder : SortTree → List RNode
  | .nil => []
  | .node l v r => inorder l ++ v :: inorder r

/-- One live call-stack frame (struct fstack), as exposed to build_tui_node:
its address and, at exit time, its accumulated total and child time. -/
structure Frame where
  addr : Nat
  total_time : Nat
  child_time : Nat
deriving DecidableEq, Repr

/-- The UFTRACE_EXIT branch of build_tui_node restricted to the report-node
statistics: min/max bookkeeping for total and self time, then the scan of the
task's live call-stack frames below the exiting frame (task->func_stack[0 ..
stack_count)) for an earlier frame at the same address; on the first match
the occurrence's total time is added to the recursive-time accumulator. -/
def build_exit_stats (stack : List Frame) (fstack : Frame) (s : ReportStats) :
    ReportStats :=
  let total_time := fstack.total_time
  let self_time := sub64 fstack.total_time fstack.child_time
  let s1 := { s with
    max_time := if s.max_time < total_time then total_time else s.max_time }
  let s2 := { s1 with
    min_time := if s1.min_time = 0 ∨ s1.min_time > total_time then total_time
                else s1.min_time }
  let s3 := { s2 with
    max_self_time := if s2.max_self_time < self_time then self_time
                     else s2.max_self_time }
  let s4 := { s3 with
    min_self_time := if s3.min_self_time = 0 ∨ s3.min_self_time > self_time
                     then self_time else s3.min_self_time }
  if stack.any (fun f => f.addr == fstack.addr) then
    { s4 with recursive_time := add64 s4.recursive_time total_time }
  else s4

/-- The statistics of function f after the two exit records of the synthetic
self-recursive trace f(t=0) -> f(t=10) -> return(t=30) -> return(t=100):
the inner exit sees the outer frame (same address 500) still live below it
with total_time 30-10 = 20, the outer exit sees an empty stack below and
total_time 100-0 = 100 with child_time 20. -/
def c3_scenario_stats : ReportStats :=
  build_exit_stats [] ⟨500, 100, 20⟩
    (build_exit_stats [⟨500, 0, 0⟩] ⟨500, 20, 0⟩ zeroStats)

/-- The two graph-node occurrences of f in that trace (modelled from the
spec's description of the incremental graph builder, which lives in
utils/graph.c): the inner call-site with inclusive 20 and no children, the
outer call-site with inclusive 100 and child-inclusive 20. -/
def c3_scenario_occs : List GOcc := [⟨20, 0, 1⟩, ⟨100, 20, 1⟩]

/-- The name (rb) tree of struct tui_report: keyed by function name via
strcmp; in find_report_node, cmp = strcmp(node->name, symname) descends left
when cmp < 0 and right otherwise. -/
inductive NameTree where
  | nil : NameTree
  | node : NameTree → String → ReportStats → NameTree → NameTree
deriving DecidableEq, Repr

/-- find_report_node fused with the subsequent in-place mutation of the found
(or freshly xzalloc'ed) node: navigate by strcmp, apply f to the node's
statistics, creating the node with zeroed statistics when absent. -/
def update_report : NameTree → String → (ReportStats → ReportStats) → NameTree
  | .nil, sym, f => .node .nil sym (f zeroStats) .nil
  | .node l nm st r, sym, f =>
    match compare nm sym with
    | .eq => .node l nm (f st) r
    | .lt => .node (update_report l sym f) nm st r
    | .gt => .node l nm st (update_report r sym f)

/-- get_graph: resolve the record's session by task id/time, then by parent
pid, then -- only for kernel addresses -- fall back to the first session;
finally look the session up in the tui_graph list.  Sessions and graphs are
identified by numeric ids; the two find_task_session lookups (external) are
passed in as their results. -/
def get_graph (byTid byPid : Option Nat) (firstSess : Nat) (isKern : Bool)
    (graphs : List Nat) : Option Nat :=
  let sess := match byTid with
    | some s => some s
    | none => byPid
  let sess := match sess with
    | some s => some s
    | none => if isKern then some firstSess else none
  match sess with
  | none => none
  | some s => if graphs.contains s then some s else none

/-- The UFTRACE_EXIT branch of build_tui_node as it acts on the report name
tree.  Faithful to the source: the branch runs whether or not get_graph
resolved a session -- the graph argument is not consulted before the report
node is located/created and mutated. -/
def build_tui_node_exit (graph : Option Nat) (tree : NameTree) (name : String)
    (stack : List Frame) (fstack : Frame) : NameTree :=
  update_report tree name (build_exit_stats stack fstack)

/-- A node of the TUI graph tree (struct tui_graph_node): display name,
inclusive time, child-inclusive time, call count, the fold flag and the
ordered child list (insertion order).  Parent back-references are represented
positionally: a node is addressed by its path of child indices, innermost
index first (so the parent of i :: rest is rest). -/
inductive GNode : Type where
  | mk : String → Nat → Nat → Nat → Bool → List GNode → GNode

/-- Display name of a graph node. -/
def GNode.name : GNode → String
  | .mk nm _ _ _ _ _ => nm

/-- Inclusive time of a graph node. -/
def GNode.time : GNode → Nat
  | .mk _ t _ _ _ _ => t

/-- Child-inclusive time of a graph node. -/
def GNode.child_time : GNode → Nat
  | .mk _ _ ct _ _ _ => ct

/-- Call count of a graph node. -/
def GNode.nr_calls : GNode → Nat
  | .mk _ _ _ nc _ _ => nc

/-- Fold flag of a graph node. -/
def GNode.folded : GNode → Bool
  | .mk _ _ _ _ f _ => f

/-- Ordered child list of a graph node. -/
def GNode.children : GNode → List GNode
  | .mk _ _ _ _ _ ch => ch

/-- A freshly append_graph_node'ed (xzalloc'ed) node: only the name is set. -/
def zeroG (nm : String) : GNode := .mk nm 0 0 0 false []

mutual
/-- copy_graph_node restricted to child lists: for every child of src (second
argument), merge it into dst's children (first argument) and recurse. -/
def copy_graph_node : List GNode → List GNode → List GNode
  | dst, [] => dst
  | dst, c :: rest => copy_graph_node (insert_merge dst c) rest
termination_by dst cs => (sizeOf cs, sizeOf dst)

/-- One iteration of copy_graph_node's outer loop: scan dst for the first
child with the same name; when none exists, append a fresh zeroed node of
that name; then accumulate time / child_time / nr_calls into it and merge the
grandchildren recursively. -/
def insert_merge : List GNode → GNode → List GNode
  | [], .mk nm t ct nc _ ch =>
    [GNode.mk nm (add64 0 t) (add64 0 ct) (add32 0 nc) false
      (copy_graph_node [] ch)]
  | d :: ds, .mk nm t ct nc f ch =>
    if d.name = nm then
      GNode.mk d.name (add64 d.time t) (add64 d.child_time ct)
        (add32 d.nr_calls nc) d.folded
        (copy_graph_node d.children ch) :: ds
    else d :: insert_merge ds (.mk nm t ct nc f ch)
termination_by ds c => (sizeOf c, sizeOf ds)
end

/-- The += block of copy_graph_node applied to an existing (or fresh) child d
for the source child c. -/
def update_merge_node (d c : GNode) : GNode :=
  GNode.mk d.name (add64 d.time c.time) (add64 d.child_time c.child_time)
    (add32 d.nr_calls c.nr_calls) d.folded
    (copy_graph_node d.children c.children)

/-- The name of the synthetic Back-trace section node. -/
def backtrace_section_name : String := "========== Back-trace =========="

/-- The name of the synthetic Call Graph section node. -/
def call_graph_section_name : String := "========== Call Graph =========="

/-- The name given to the root of the synthesized graph (the xasprintf at the
top of the partial-graph builder). -/
def pgraph_root_name (s : String) : String :=
  "=== Function Call Graph for " ++ String.singleton (Char.ofNat 39) ++ s ++
    String.singleton (Char.ofNat 39) ++ " ==="

/-- The Call Graph half of the partial-graph builder: starting from the
fresh node named after the pivot, accumulate time / child_time / nr_calls of
every pivot occurrence whose graph is the focused session's, and merge that
occurrence's subtree in by name.  Occurrences are tagged with their owning
session id. -/
def build_call_graph (pivotName : String) (target : Nat)
    (occs : List (Nat × GNode)) : GNode :=
  occs.foldl
    (fun root occ =>
      if occ.1 = target then
        GNode.mk root.name (add64 root.time occ.2.time)
          (add64 root.child_time occ.2.child_time)
          (add32 root.nr_calls occ.2.nr_calls) root.folded
          (copy_graph_node root.children occ.2.children)
      else root)
    (zeroG pivotName)

/-- The Call Graph section: the synthetic section node gets exactly one child,
named after the pivot, holding the merged accumulation. -/
def build_call_graph_section (pivotName : String) (target : Nat)
    (occs : List (Nat × GNode)) : GNode :=
  GNode.mk call_graph_section_name 0 0 0 false
    [build_call_graph pivotName target occs]

/-- One materialized level of a back-trace path: the ancestor's name, the
occurrence's statistics copied onto it, and the fold flag. -/
structure BTLevel where
  name : String
  time : Nat
  child_time : Nat
  nr_calls : Nat
  folded : Bool
deriving DecidableEq, Repr

/-- The while (parent->n.parent) loop of the back-trace builder: one level per
ancestor name (occurrence first, artificial root excluded), each carrying the
occurrence's time / child_time / nr_calls; the counter n folds the level
appended when n++ == 1, i.e. the second materialized level. -/
def btLoop (occT occCT occN : Nat) : List String → Nat → List BTLevel
  | [], _ => []
  | nm :: rest, n =>
    ⟨nm, occT, occCT, occN, n == 1⟩ :: btLoop occT occCT occN rest (n + 1)

/-- One back-trace path of the partial-graph builder: run the ancestor loop,
then -- "but, unfold it if it's the last child" -- clear the fold flag of the
last appended level when exactly two levels were materialized. -/
def backtrace_path (occT occCT occN : Nat) (names : List String) :
    List BTLevel :=
  let l := btLoop occT occCT occN names 0
  if names.length = 2 then
    match l with
    | [a, b] => [a, ⟨b.name, b.time, b.child_time, b.nr_calls, false⟩]
    | _ => l
  else l

mutual
/-- fold_graph_node: leaf nodes are left untouched ("do not fold leaf nodes");
otherwise the node's fold flag is set to the requested value (counting 1 when
it actually changed) and the children are folded recursively, returning the
updated subtree and the number of nodes whose flag changed. -/
def fold_graph_node (fold : Bool) : GNode → GNode × Nat
  | .mk nm t ct nc f ch =>
    match ch with
    | [] => (.mk nm t ct nc f [], 0)
    | c :: cs =>
      let self := if f = fold then 0 else 1
      let rest := fold_list fold (c :: cs)
      (.mk nm t ct nc fold rest.1, self + rest.2)

/-- fold_graph_node applied to every node of a list, summing the counts. -/
def fold_list (fold : Bool) : List GNode → List GNode × Nat
  | [] => ([], 0)
  | c :: cs =>
    let hd := fold_graph_node fold c
    let tl := fold_list fold cs
    (hd.1 :: tl.1, hd.2 + tl.2)
end

/-- win_collapse_graph: fold every child subtree of the current node (the
current node itself is untouched), returning the updated node and the total
change count (the C function returns that count through a bool-typed
operation slot, so the caller observes count != 0 as "redraw needed"). -/
def win_collapse_graph (n : GNode) : GNode × Nat :=
  let r := fold_list true n.children
  (GNode.mk n.name n.time n.child_time n.nr_calls n.folded r.1, r.2)

/-- win_expand_graph: unfold every child subtree of the current node. -/
def win_expand_graph (n : GNode) : GNode × Nat :=
  let r := fold_list false n.children
  (GNode.mk n.name n.time n.child_time n.nr_calls n.folded r.1, r.2)

/-- Reference version of fold_graph_node's state change: set the fold flag of
every non-leaf node of the subtree to b, leaves unchanged. -/
def set_desc (b : Bool) : GNode → GNode
  | .mk nm t ct nc f ch =>
    match ch with
    | [] => .mk nm t ct nc f []
    | c :: cs => .mk nm t ct nc b ((c :: cs).attach.map fun x => set_desc b x.1)
termination_by n => sizeOf n
decreasing_by
  simp_wf
  have h1 := List.sizeOf_lt_of_mem x.2
  simp at h1
  omega

/-- Reference version of fold_graph_node's count: the number of non-leaf
nodes of the subtree whose fold flag differs from b. -/
def cnt_desc (b : Bool) : GNode → Nat
  | .mk _ _ _ _ f ch =>
    match ch with
    | [] => 0
    | c :: cs =>
      (if f = b then 0 else 1) +
        ((c :: cs).attach.map fun x => cnt_desc b x.1).sum
termination_by n => sizeOf n
decreasing_by
  simp_wf
  have h1 := List.sizeOf_lt_of_mem x.2
  simp at h1
  omega

/-- All non-leaf nodes of the subtree carry fold flag b. -/
def all_set (b : Bool) : GNode → Bool
  | .mk _ _ _ _ f ch =>
    match ch with
    | [] => true
    | c :: cs => (f == b) && (c :: cs).attach.all fun x => all_set b x.1
termination_by n => sizeOf n
decreasing_by
  simp_wf
  have h1 := List.sizeOf_lt_of_mem x.2
  simp at h1
  omega

/-- Node lookup by position.  A position lists child indices innermost first:
i :: rest addresses child i of the node at rest, [] is the root (so the
parent pointer of i :: rest is rest). -/
def lookupG (root : GNode) : List Nat → Option GNode
  | [] => some root
  | i :: rest =>
    match lookupG root rest with
    | some m => m.children.get? i
    | none => none

/-- A position is visible for traversal: it exists, and every node on the
parent chain strictly below the root is unfolded (the root's fold flag is
ignored, exactly as graph_next_node descends from the root unconditionally
and nothing else ever reads it). -/
def visibleB (root : GNode) : List Nat → Bool
  | [] => true
  | i :: rest =>
    visibleB root rest &&
      (match lookupG root rest with
       | some m =>
         decide (i < m.children.length) && (rest.isEmpty || !m.folded)
       | none => false)

/-- The climbing loop at the bottom of graph_next_node: walk up the parent
chain until a node has a following sibling, and move to that sibling;
reaching the root yields NULL. -/
def climb_next (root : GNode) : List Nat → Option (List Nat)
  | [] => none
  | i :: rest =>
    match lookupG root rest with
    | none => none
    | some par =>
      if i + 1 < par.children.length then some ((i + 1) :: rest)
      else climb_next root rest

/-- graph_next_node (node result only; the depth counter and the indent mask
are in-out bookkeeping that never influences which node is returned, see
graph_next_node_d below for the full version): descend to the first child
when the node has children and is the root or unfolded, otherwise climb. -/
def graph_next_node (root : GNode) (pos : List Nat) : Option (List Nat) :=
  match lookupG root pos with
  | none => none
  | some cur =>
    if (!cur.children.isEmpty) && (pos.isEmpty || !cur.folded) then
      some (0 :: pos)
    else climb_next root pos

/-- The descent loop in graph_prev_node ("if it has children, move to the
last child", repeated while the node is nonempty and unfolded). -/
def descend_last : GNode → List Nat → List Nat
  | .mk _ _ _ _ f ch, pos =>
    match h : ch.getLast? with
    | none => pos
    | some c =>
      if f then pos else descend_last c ((ch.length - 1) :: pos)
termination_by n => sizeOf n
decreasing_by
  simp_wf
  have h1 := List.sizeOf_lt_of_mem (List.mem_of_getLast?_eq_some h)
  omega

/-- graph_prev_node (node result only): the root has no predecessor; a first
child's predecessor is its parent; otherwise move to the previous sibling and
descend to its last visible node. -/
def graph_prev_node (root : GNode) (pos : List Nat) : Option (List Nat) :=
  match pos with
  | [] => none
  | i :: rest =>
    if i = 0 then some rest
    else
      match lookupG root ((i - 1) :: rest) with
      | some sib => some (descend_last sib ((i - 1) :: rest))
      | none => none

/-- is_special_node: the display name starts with the character '='. -/
def is_special_node (n : GNode) : Bool :=
  match n.name.data with
  | [] => false
  | c :: _ => c == Char.ofNat 61

/-- list_is_singular: exactly one element. -/
def isSingular (l : List GNode) : Bool := l.length == 1

/-- The climbing loop of graph_next_node with the depth counter and indent
mask threaded through ("otherwise look up parent": decrement depth and clear
the mask bit when the parent has siblings), forcing depth to 0 when the
sibling stepped onto is a special node. -/
def climb_next_d (root : GNode) :
    List Nat → Nat → (Nat → Bool) → Option (List Nat × Nat × (Nat → Bool))
  | [], _, _ => none
  | i :: rest, depth, mask =>
    match lookupG root rest with
    | none => none
    | some par =>
      if i + 1 < par.children.length then
        match par.children.get? (i + 1) with
        | some sib =>
          some ((i + 1) :: rest, (if is_special_node sib then 0 else depth),
            mask)
        | none => none
      else
        if ¬ isSingular par.children ∧ depth > 0 then
          climb_next_d root rest (depth - 1)
            (Function.update mask (depth - 1) false)
        else climb_next_d root rest depth mask

/-- graph_next_node with the depth counter and indent-continuation mask: the
entry fix-up clears the bit below the current depth when leaving a last child
with siblings; descending into a multi-child node sets the bit at the current
depth and increments depth; stepping onto a special node forces depth to 0. -/
def graph_next_node_d (root : GNode) (pos : List Nat) (depth : Nat)
    (mask : Nat → Bool) : Option (List Nat × Nat × (Nat → Bool)) :=
  match lookupG root pos with
  | none => none
  | some cur =>
    let mask1 :=
      match pos with
      | [] => mask
      | i :: rest =>
        match lookupG root rest with
        | some par =>
          if ¬ isSingular par.children ∧ i + 1 = par.children.length ∧
              depth > 0 then
            Function.update mask (depth - 1) false
          else mask
        | none => mask
    if (!cur.children.isEmpty) && (pos.isEmpty || !cur.folded) then
      let dm : Nat × (Nat → Bool) :=
        if ¬ isSingular cur.children then
          (depth + 1, Function.update mask1 depth true)
        else (depth, mask1)
      match cur.children.head? with
      | some child =>
        some (0 :: pos, (if is_special_node child then 0 else dm.1), dm.2)
      | none => none
    else climb_next_d root pos depth mask1

/-- The shape of one rendered row in win_display_graph: special nodes print
the bare name, ordinary nodes print fold sign, call count and name. -/
inductive DispLine where
  | sect : String → DispLine
  | func : String → Nat → String → DispLine
deriving DecidableEq, Repr

/-- The name-printing branch of win_display_graph: special nodes are rendered
without fold sign or call count. -/
def display_line (n : GNode) (fold_sign : String) : DispLine :=
  if is_special_node n then .sect n.name
  else .func fold_sign n.nr_calls n.name

/-- An abstract view sequence for the generic window engine: the number of
rows the view's prev/next primitives iterate over, and whether the view's
needs_blank operation inserts a blank separator row between positions p and
p + 1. -/
structure ViewSeq where
  len : Nat
  blank : Nat → Bool

/-- struct tui_window's cursor state: top / current node (as positions in the
traversal sequence) and their logical row indices (C ints). -/
structure WinSt where
  top : Nat
  curr : Nat
  top_index : Int
  curr_index : Int
deriving DecidableEq, Repr

/-- The state established by tui_window_init / tui_window_move_home:
top = curr = the view's canonical top, both indices 0. -/
def winStart : WinSt := ⟨0, 0, 0, 0⟩

/-- The view's next primitive as a sequence step (for the report view this is
rb_next on the ranking tree, i.e. the in-order successor -- modelled from the
spec since rbtree.c is external). -/
def vnext (V : ViewSeq) (p : Nat) : Option Nat :=
  if p + 1 < V.len then some (p + 1) else none

/-- The view's prev primitive as a sequence step (rb_prev / in-order
predecessor for the report view). -/
def vprev (V : ViewSeq) (p : Nat) : Option Nat :=
  if p = 0 then none else some (p - 1)

/-- The row-index weight of the separator between positions p and p + 1. -/
def blankI (V : ViewSeq) (p : Nat) : Int := if V.blank p then 1 else 0

/-- Logical row index of position p: every step contributes one row plus one
extra row when a blank separator precedes it. -/
def rowIdx (V : ViewSeq) : Nat → Nat
  | 0 => 0
  | p + 1 => rowIdx V p + 1 + (if V.blank p then 1 else 0)

/-- tui_window_move_up: step curr back via prev, decrement the row index
(twice when crossing a blank separator), and when curr moved above the
viewport pull the top cursor back one step and pin its index to curr's. -/
def tui_window_move_up (V : ViewSeq) (s : WinSt) : WinSt :=
  match vprev V s.curr with
  | none => s
  | some node =>
    let ci := s.curr_index - 1 - blankI V node
    if ci < s.top_index then
      ⟨s.top - 1, node, ci, ci⟩
    else ⟨s.top, node, s.top_index, ci⟩

/-- The while loop at the bottom of tui_window_move_down (and of page-down /
end): advance the top cursor one row at a time until curr is back inside the
viewport of height H (= LINES - 2).  The loop runs at most fuel times; every
caller passes a fuel that exceeds the distance to curr, and under the window
invariant the loop stops at curr at the latest. -/
def advance_top (V : ViewSeq) (H : Nat) :
    Nat → Nat → Int → Int → Nat × Int
  | 0, t, ti, _ => (t, ti)
  | fuel + 1, t, ti, ci =>
    if ci - ti ≥ (H : Int) then
      advance_top V H fuel (t + 1) (ti + 1 + blankI V t) ci
    else (t, ti)

/-- tui_window_move_down: step curr forward via next, increment the row index
(twice when crossing a blank separator), then scroll the top cursor forward
while curr is outside the viewport. -/
def tui_window_move_down (V : ViewSeq) (H : Nat) (s : WinSt) : WinSt :=
  match vnext V s.curr with
  | none => s
  | some node =>
    let ci := s.curr_index + 1 + blankI V s.curr
    let tti := advance_top V H V.len s.top s.top_index ci
    ⟨tti.1, node, tti.2, ci⟩

/-- win_sibling_prev_no (used by the report view): "no-op" slot that simply
delegates to the view's prev operation. -/
def win_sibling_prev_no (V : ViewSeq) (p : Nat) : Option Nat := vprev V p

/-- win_sibling_next_no (used by the report view): delegates to next. -/
def win_sibling_next_no (V : ViewSeq) (p : Nat) : Option Nat := vnext V p

/-- The while (win->curr != prev) loop of tui_window_move_prev, with explicit
fuel (the loop's iteration count is bounded by curr's position). -/
def move_up_until (V : ViewSeq) (tgt : Nat) : Nat → WinSt → WinSt
  | 0, s => s
  | f + 1, s =>
    if s.curr = tgt then s
    else move_up_until V tgt f (tui_window_move_up V s)

/-- tui_window_move_prev: resolve the previous sibling through the view's
sibling slot (the report view's delegates to prev) and repeat move-up until
the cursor lands on it. -/
def tui_window_move_prev (V : ViewSeq) (s : WinSt) : WinSt :=
  match win_sibling_prev_no V s.curr with
  | none => s
  | some tgt => move_up_until V tgt s.curr s

/-- The while (win->curr != next) loop of tui_window_move_next. -/
def move_down_until (V : ViewSeq) (H : Nat) (tgt : Nat) : Nat → WinSt → WinSt
  | 0, s => s
  | f + 1, s =>
    if s.curr = tgt then s
    else move_down_until V H tgt f (tui_window_move_down V H s)

/-- tui_window_move_next: resolve the next sibling through the view's sibling
slot and repeat move-down until the cursor lands on it. -/
def tui_window_move_next (V : ViewSeq) (H : Nat) (s : WinSt) : WinSt :=
  match win_sibling_next_no V s.curr with
  | none => s
  | some tgt => move_down_until V H tgt V.len s

/-- The window-engine invariant maintained by move-up/move-down from the
canonical start: top at or above curr, both inside the sequence, row indices
consistent, and curr within the viewport below top. -/
def winInv (V : ViewSeq) (H : Nat) (s : WinSt) : Prop :=
  s.top ≤ s.curr ∧ s.curr < V.len ∧
    s.top_index = (rowIdx V s.top : Int) ∧
    s.curr_index = (rowIdx V s.curr : Int) ∧
    rowIdx V s.curr - rowIdx V s.top < H

/-- The condition under which graph_next_node refuses to descend into a
non-root node and under which graph_prev_node's descent loop stops: no
children, or folded. -/
def stopB (n : GNode) : Bool := n.children.isEmpty || n.folded

/-- A chain of last-child links: last_chainR root pre a says that walking
down from position a, each index in pre (read left to right) addresses the
last child of an unfolded (or root) node.  This is the shape of the parent
chains skipped by graph_next_node's climbing loop and walked back down by
graph_prev_node's descent loop. -/
def last_chainR (root : GNode) : List Nat → List Nat → Prop
  | [], _ => True
  | k :: t, a =>
    (∃ m, lookupG root a = some m ∧ k + 1 = m.children.length ∧
      (a = [] ∨ m.folded = false)) ∧
      last_chainR root t (k :: a)

/-- Search-tree invariant of the ranking tree: everything left of a node has
strictly larger total time, everything right of it smaller or equal (ties go
right in sort_report_node's descent). -/
def SInv : SortTree → Prop
  | .nil => True
  | .node l v r =>
    (∀ a ∈ inorder l, v.stats.time < a.stats.time) ∧
      (∀ b ∈ inorder r, b.stats.time ≤ v.stats.time) ∧ SInv l ∧ SInv r

/-- Sum of the inclusive times of the pivot occurrences that belong to the
focused session. -/
def occSumTime (t : Nat) (occs : List (Nat × GNode)) : Nat :=
  ((occs.filter fun o => o.1 == t).map fun o => o.2.time).sum

/-- Sum of the child-inclusive times of the focused pivot occurrences. -/
def occSumChild (t : Nat) (occs : List (Nat × GNode)) : Nat :=
  ((occs.filter fun o => o.1 == t).map fun o => o.2.child_time).sum

/-- Sum of the call counts of the focused pivot occurrences. -/
def occSumCalls (t : Nat) (occs : List (Nat × GNode)) : Nat :=
  ((occs.filter fun o => o.1 == t).map fun o => o.2.nr_calls).sum

/-- What win_collapse_graph / win_expand_graph do to the window's current
node, per set_desc: fold flag and everything else of the node itself kept,
every child subtree rewritten. -/
def fold_spec (b : Bool) (n : GNode) : GNode :=
  GNode.mk n.name n.time n.child_time n.nr_calls n.folded
    (n.children.map (set_desc b))

/-- Concrete three-node graph used by witnesses: root -> a -> b and
root -> c. -/
def gEx : GNode :=
  .mk "root" 0 0 0 false
    [.mk "a" 10 4 1 false [.mk "b" 4 0 1 false []],
     .mk "c" 7 0 2 false []]

/-- Concrete view sequence used by witnesses: three rows with a blank
separator between rows 0 and 1. -/
def vEx : ViewSeq := ⟨3, fun p => p == 0⟩

/-- Two-row separator-free view of the report window used by the C9
counterexample. -/
def vRep2 : ViewSeq := ⟨2, fun _ => false⟩

/-- A report-window state sitting on the second row. -/
def sRep2 : WinSt := ⟨0, 1, 0, 1⟩

/-- Tree with two non-special children used for the depth-not-forced part of
the special-node theorem. -/
def gEx2 : GNode :=
  .mk "root" 0 0 0 false
    [.mk "alpha" 1 0 1 false [], .mk "beta" 2 0 1 false []]

theorem w64_pos : 0 < w64 := by decide

theorem w32_pos : 0 < w32 := by decide

theorem sub64_eq_sub (a b : Nat) (hba : b ≤ a) (ha : a < w64) :
    sub64 a b = a - b := by
  unfold sub64
  rw [Nat.mod_eq_of_lt (lt_of_le_of_lt hba ha)]
  have h1 : a + (w64 - b) = w64 + (a - b) := by omega
  rw [h1, Nat.add_mod_left, Nat.mod_eq_of_lt (by omega)]

theorem prepare_fold (occs : List GOcc) (s : ReportStats)
    (hg : ∀ g ∈ occs, g.child_time ≤ g.time ∧ g.time < w64)
    (hs : s.time < w64 ∧ s.self_time < w64 ∧ s.calls < w32) :
    (occs.foldl prepare_step s).time = (s.time + sumTime occs) % w64 ∧
      (occs.foldl prepare_step s).self_time =
        (s.self_time + sumSelf occs) % w64 ∧
      (occs.foldl prepare_step s).calls = (s.calls + sumCalls occs) % w32 ∧
      (occs.foldl prepare_step s).recursive_time = s.recursive_time := by
  induction occs generalizing s with
  | nil =>
    refine ⟨?_, ?_, ?_, rfl⟩
    · simp [sumTime, Nat.mod_eq_of_lt hs.1]
    · simp [sumSelf, Nat.mod_eq_of_lt hs.2.1]
    · simp [sumCalls, Nat.mod_eq_of_lt hs.2.2]
  | cons g occs ih =>
    have hgg := hg g (by simp)
    have hrest : ∀ x ∈ occs, x.child_time ≤ x.time ∧ x.time < w64 :=
      fun x hx => hg x (by simp [hx])
    have hstep : prepare_step s g =
        { s with
          time := (s.time + g.time) % w64
          self_time := (s.self_time + (g.time - g.child_time)) % w64
          calls := (s.calls + g.nr_calls) % w32 } := by
      simp [prepare_step, add64, add32, sub64_eq_sub g.time g.child_time
        hgg.1 hgg.2]
    have hb : (prepare_step s g).time < w64 ∧
        (prepare_step s g).self_time < w64 ∧ (prepare_step s g).calls < w32 := by
      rw [hstep]
      exact ⟨Nat.mod_lt _ w64_pos, Nat.mod_lt _ w64_pos, Nat.mod_lt _ w32_pos⟩
    have ihh := ih (prepare_step s g) hrest hb
    rw [List.foldl_cons] at *
    refine ⟨?_, ?_, ?_, ?_⟩
    · rw [ihh.1, hstep]
      simp only [sumTime, List.map_cons, List.sum_cons]
      rw [Nat.mod_add_mod]
      ring_nf
    · rw [ihh.2.1, hstep]
      simp only [sumSelf, List.map_cons, List.sum_cons]
      rw [Nat.mod_add_mod]
      ring_nf
    · rw [ihh.2.2.1, hstep]
      simp only [sumCalls, List.map_cons, List.sum_cons]
      rw [Nat.mod_add_mod]
      ring_nf
    · rw [ihh.2.2.2, hstep]

theorem time_le_sumTime {g : GOcc} {occs : List GOcc} (h : g ∈ occs) :
    g.time ≤ sumTime occs := by
  exact List.single_le_sum (fun x _ => Nat.zero_le x) _
    (List.mem_map_of_mem GOcc.time h)

theorem sumSelf_le_sumTime (occs : List GOcc) : sumSelf occs ≤ sumTime occs := by
  exact List.sum_le_sum fun g _ => Nat.sub_le _ _

/-- C1: after prepare_report_node has run exactly once over a report node's
occurrence list (its aggregate fields still zero from xzalloc, its recursive
time already accumulated), total time = sum of occurrence inclusive times
minus recursive time, self time = sum of (inclusive - child-inclusive), and
the call count = sum of the occurrence call counts. -/
theorem c1_prepare_report_node_sums (occs : List GOcc) (R : Nat)
    (hb : ∀ g ∈ occs, g.child_time ≤ g.time)
    (hsum : sumTime occs < w64) (hcalls : sumCalls occs < w32)
    (hR : R ≤ sumTime occs) :
    (prepare_report_node occs { zeroStats with recursive_time := R }).time =
        sumTime occs - R ∧
      (prepare_report_node occs
        { zeroStats with recursive_time := R }).self_time = sumSelf occs ∧
      (prepare_report_node occs { zeroStats with recursive_time := R }).calls =
        sumCalls occs := by
  have hg : ∀ g ∈ occs, g.child_time ≤ g.time ∧ g.time < w64 := fun g hgm =>
    ⟨hb g hgm, lt_of_le_of_lt (time_le_sumTime hgm) hsum⟩
  have hz : ({ zeroStats with recursive_time := R } : ReportStats).time < w64 ∧
      ({ zeroStats with recursive_time := R } : ReportStats).self_time < w64 ∧
      ({ zeroStats with recursive_time := R } : ReportStats).calls < w32 := by
    refine ⟨?_, ?_, ?_⟩ <;> simp [zeroStats, w64_pos, w32_pos]
  have hf := prepare_fold occs { zeroStats with recursive_time := R } hg hz
  have hts : (occs.foldl prepare_step
      { zeroStats with recursive_time := R }).time = sumTime occs := by
    rw [hf.1]; simp [zeroStats, Nat.mod_eq_of_lt hsum]
  have hss : (occs.foldl prepare_step
      { zeroStats with recursive_time := R }).self_time = sumSelf occs := by
    rw [hf.2.1]
    simp [zeroStats,
      Nat.mod_eq_of_lt (lt_of_le_of_lt (sumSelf_le_sumTime occs) hsum)]
  have hcs : (occs.foldl prepare_step
      { zeroStats with recursive_time := R }).calls = sumCalls occs := by
    rw [hf.2.2.1]; simp [zeroStats, Nat.mod_eq_of_lt hcalls]
  have hrs := hf.2.2.2
  unfold prepare_report_node
  refine ⟨?_, ?_, ?_⟩
  · simp only [hts, hrs]
    exact sub64_eq_sub _ _ hR hsum
  · simpa using hss
  · simpa using hcs

/-- Witness for C1 at a concrete occurrence list. -/
theorem c1_prepare_report_node_sums_witness :
    (prepare_report_node [⟨10, 3, 2⟩, ⟨5, 0, 1⟩]
        { zeroStats with recursive_time := 4 }).time = 11 ∧
      (prepare_report_node [⟨10, 3, 2⟩, ⟨5, 0, 1⟩]
        { zeroStats with recursive_time := 4 }).self_time = 12 ∧
      (prepare_report_node [⟨10, 3, 2⟩, ⟨5, 0, 1⟩]
        { zeroStats with recursive_time := 4 }).calls = 3 :=
  c1_prepare_report_node_sums [⟨10, 3, 2⟩, ⟨5, 0, 1⟩] 4 (by decide) (by decide)
    (by decide) (by decide)

theorem cmp_lt_iff (v x : RNode) :
    cmp_report_node v x < 0 ↔ v.stats.time < x.stats.time := by
  unfold cmp_report_node
  split
  · split
    · constructor
      · intro h; omega
      · intro h; omega
    · rename_i hne hng
      constructor
      · intro _; omega
      · intro _; decide
  · rename_i he
    constructor
    · intro h; omega
    · intro h; omega

theorem inorder_sort_insert_perm (t : SortTree) (x : RNode) :
    (inorder (sort_insert t x)).Perm (x :: inorder t) := by
  induction t with
  | nil => simp [sort_insert, inorder]
  | node l v r ihl ihr =>
    by_cases h : cmp_report_node v x < 0
    · simp only [sort_insert, if_pos h, inorder]
      have h1 := ihl.append_right (v :: inorder r)
      simpa using h1
    · simp only [sort_insert, if_neg h, inorder]
      have h1 := (ihr.cons v).append_left (inorder l)
      have h2 : (inorder l ++ v :: x :: inorder r).Perm
          (x :: (inorder l ++ v :: inorder r)) := by
        have h3 := @List.perm_middle _ x (inorder l ++ [v]) (inorder r)
        simpa using h3
      exact h1.trans h2

theorem sort_insert_inv (t : SortTree) (x : RNode) (h : SInv t) :
    SInv (sort_insert t x) := by
  induction t with
  | nil => simp [sort_insert, SInv, inorder]
  | node l v r ihl ihr =>
    obtain ⟨hl, hr, hil, hir⟩ := h
    by_cases hc : cmp_report_node v x < 0
    · simp only [sort_insert, if_pos hc, SInv]
      refine ⟨?_, hr, ihl hil, hir⟩
      intro a ha
      have hmem := (inorder_sort_insert_perm l x).mem_iff.mp ha
      rcases List.mem_cons.mp hmem with h1 | h2
      · subst h1; exact (cmp_lt_iff v a).mp hc
      · exact hl a h2
    · simp only [sort_insert, if_neg hc, SInv]
      refine ⟨hl, ?_, hil, ihr hir⟩
      intro b hbm
      have hmem := (inorder_sort_insert_perm r x).mem_iff.mp hbm
      rcases List.mem_cons.mp hmem with h1 | h2
      · subst h1
        have := (cmp_lt_iff v b).not.mp hc
        omega
      · exact hr b h2

theorem sorted_of_SInv (t : SortTree) (h : SInv t) :
    (inorder t).Pairwise fun a b => b.stats.time ≤ a.stats.time := by
  induction t with
  | nil => simp [inorder]
  | node l v r ihl ihr =>
    obtain ⟨hl, hr, hil, hir⟩ := h
    simp only [inorder]
    rw [List.pairwise_append]
    refine ⟨ihl hil, ?_, ?_⟩
    · rw [List.pairwise_cons]
      exact ⟨fun b hb => hr b hb, ihr hir⟩
    · intro a ha b hb
      rcases List.mem_cons.mp hb with h1 | h2
      · subst h1; exact le_of_lt (hl a ha)
      · exact le_trans (hr b h2) (le_of_lt (hl a ha))

theorem sort_fold_inv_perm (ns : List RNode) (t : SortTree) (h : SInv t) :
    SInv (ns.foldl sort_report_node t) ∧
      (inorder (ns.foldl sort_report_node t)).Perm
        (ns.map prepareR ++ inorder t) := by
  induction ns generalizing t with
  | nil => exact ⟨h, by simp⟩
  | cons n ns ih =>
    have hstep : SInv (sort_report_node t n) :=
      sort_insert_inv t (prepareR n) h
    have ihh := ih (sort_report_node t n) hstep
    refine ⟨ihh.1, ?_⟩
    have h1 : (inorder ((n :: ns).foldl sort_report_node t)).Perm
        (ns.map prepareR ++ inorder (sort_report_node t n)) := ihh.2
    have h2 : (ns.map prepareR ++ inorder (sort_report_node t n)).Perm
        (ns.map prepareR ++ (prepareR n :: inorder t)) :=
      (inorder_sort_insert_perm t (prepareR n)).append_left _
    have h3 : (ns.map prepareR ++ (prepareR n :: inorder t)).Perm
        (prepareR n :: (ns.map prepareR ++ inorder t)) := by
      have h4 := @List.perm_middle _ (prepareR n) (ns.map prepareR)
        (inorder t)
      simpa using h4
    have h5 : ((n :: ns).map prepareR ++ inorder t) =
        prepareR n :: (ns.map prepareR ++ inorder t) := by simp
    rw [h5]
    exact (h1.trans h2).trans h3

/-- C2: after sort_tui_report, the in-order walk of the ranking tree is
sorted by total time descending (a node with strictly larger total appears
strictly earlier), every finalized node is retained (the walk is a
permutation of the finalized input), and re-running the finalization on the
same occurrence data produces the identical ranking order. -/
theorem c2_sort_tui_report_ranking (ns : List RNode) :
    ((inorder (sort_tui_report ns)).Pairwise
        fun a b => b.stats.time ≤ a.stats.time) ∧
      (∀ i j (hi : i < (inorder (sort_tui_report ns)).length)
          (hj : j < (inorder (sort_tui_report ns)).length),
        ((inorder (sort_tui_report ns)).get ⟨i, hi⟩).stats.time >
            ((inorder (sort_tui_report ns)).get ⟨j, hj⟩).stats.time → i < j) ∧
      (inorder (sort_tui_report ns)).Perm (ns.map prepareR) ∧
      (∀ ms, ns = ms →
        inorder (sort_tui_report ns) = inorder (sort_tui_report ms)) := by
  have h := sort_fold_inv_perm ns .nil trivial
  have hsorted : (inorder (sort_tui_report ns)).Pairwise
      fun a b => b.stats.time ≤ a.stats.time := sorted_of_SInv _ h.1
  have hperm : (inorder (sort_tui_report ns)).Perm (ns.map prepareR) := by
    have := h.2
    simpa [inorder] using this
  refine ⟨hsorted, ?_, hperm, fun ms hms => by rw [hms]⟩
  intro i j hi hj hgt
  by_contra hne
  push_neg at hne
  rcases Nat.lt_or_ge j i with hji | hij
  · have := (List.pairwise_iff_get.mp hsorted) ⟨j, hj⟩ ⟨i, hi⟩ hji
    simp only at this
    omega
  · have : i = j := by omega
    subst this
    omega

/-- Witness for C2: a two-node report where the heavier node must come first. -/
theorem c2_sort_tui_report_ranking_witness : (0 : Nat) < 1 := by
  have h := (c2_sort_tui_report_ranking
    [⟨"f", [⟨5, 0, 1⟩], zeroStats⟩, ⟨"g", [⟨9, 0, 1⟩], zeroStats⟩]).2.1
    0 1 (by decide) (by decide)
  exact h (by decide)

theorem build_exit_stats_recursive (stack : List Frame) (fr : Frame)
    (s : ReportStats) :
    (build_exit_stats stack fr s).recursive_time =
      (if stack.any (fun f => f.addr == fr.addr) then
        add64 s.recursive_time fr.total_time
      else s.recursive_time) := by
  unfold build_exit_stats
  split <;> simp

/-- C3: when processing a call-exit record, the builder scans the live
call-stack frames below the exiting frame; the occurrence's total time is
added to the recursive-time accumulator exactly when an earlier frame at the
same address exists.  For the synthetic trace where f calls itself once
before returning (f enters at t=0 and t=10, returns at t=30 and t=100),
f's recursive time equals the inner call's total time (20) and the finalized
total equals the outermost call's wall time only (100). -/
theorem c3_recursion_detection :
    (∀ (stack : List Frame) (fr : Frame) (s : ReportStats),
      ((∃ f ∈ stack, f.addr = fr.addr) →
        (build_exit_stats stack fr s).recursive_time =
          add64 s.recursive_time fr.total_time) ∧
      ((∀ f ∈ stack, f.addr ≠ fr.addr) →
        (build_exit_stats stack fr s).recursive_time = s.recursive_time)) ∧
    c3_scenario_stats.recursive_time = 20 ∧
    (prepare_report_node c3_scenario_occs c3_scenario_stats).time = 100 := by
  refine ⟨?_, by decide, by decide⟩
  intro stack fr s
  constructor
  · intro hex
    rw [build_exit_stats_recursive]
    have hany : stack.any (fun f => f.addr == fr.addr) = true := by
      rcases hex with ⟨f, hf, he⟩
      exact List.any_eq_true.mpr ⟨f, hf, by simpa using he⟩
    rw [hany]
    simp
  · intro hnone
    rw [build_exit_stats_recursive]
    have hany : stack.any (fun f => f.addr == fr.addr) = false := by
      rw [List.any_eq_false]
      intro f hf
      simpa using hnone f hf
    rw [hany]
    simp

/-- Witness for C3: the inner exit of the scenario (outer frame of the same
address still live) does add to the accumulator, and an unrelated frame does
not. -/
theorem c3_recursion_detection_witness :
    (build_exit_stats [⟨500, 0, 0⟩] ⟨500, 20, 0⟩ zeroStats).recursive_time =
        add64 zeroStats.recursive_time 20 ∧
      (build_exit_stats [⟨7, 0, 0⟩] ⟨500, 20, 0⟩ zeroStats).recursive_time =
        zeroStats.recursive_time :=
  ⟨((c3_recursion_detection.1 [⟨500, 0, 0⟩] ⟨500, 20, 0⟩ zeroStats).1
      ⟨⟨500, 0, 0⟩, by decide, rfl⟩),
    ((c3_recursion_detection.1 [⟨7, 0, 0⟩] ⟨500, 20, 0⟩ zeroStats).2
      (by decide))⟩

theorem insert_merge_not_found (dst : List GNode) (c : GNode)
    (h : ∀ d ∈ dst, d.name ≠ c.name) :
    insert_merge dst c = dst ++ [update_merge_node (zeroG c.name) c] := by
  induction dst with
  | nil =>
    cases c with
    | mk nm t ct nc f ch =>
      simp [insert_merge, update_merge_node, zeroG, GNode.name, GNode.time,
        GNode.child_time, GNode.nr_calls, GNode.folded, GNode.children]
  | cons d ds ih =>
    have hd : d.name ≠ c.name := h d (by simp)
    cases c with
    | mk nm t ct nc f ch =>
      have hd2 : ¬ d.name = nm := by simpa [GNode.name] using hd
      simp only [insert_merge, if_neg hd2, List.cons_append]
      rw [ih fun e he => h e (by simp [he])]

theorem insert_merge_found (dst : List GNode) (c : GNode)
    (h : ∃ d ∈ dst, d.name = c.name) :
    ∃ pre d post, dst = pre ++ d :: post ∧ (∀ e ∈ pre, e.name ≠ c.name) ∧
      d.name = c.name ∧
      insert_merge dst c = pre ++ update_merge_node d c :: post := by
  induction dst with
  | nil => simp at h
  | cons d ds ih =>
    by_cases hd : d.name = c.name
    · refine ⟨[], d, ds, rfl, by simp, hd, ?_⟩
      cases c with
      | mk nm t ct nc f ch =>
        have hd2 : d.name = nm := hd
        simp only [insert_merge, List.nil_append, update_merge_node]
        rw [if_pos hd2]
        simp [GNode.time, GNode.child_time, GNode.nr_calls, GNode.children]
    · have hds : ∃ e ∈ ds, e.name = c.name := by
        rcases h with ⟨e, he, hee⟩
        rcases List.mem_cons.mp he with h1 | h2
        · subst h1; exact absurd hee hd
        · exact ⟨e, h2, hee⟩
      rcases ih hds with ⟨pre, dd, post, hsplit, hpre, hdd, heq⟩
      refine ⟨d :: pre, dd, post, by rw [hsplit]; rfl, ?_, hdd, ?_⟩
      · intro e he
        rcases List.mem_cons.mp he with h1 | h2
        · subst h1; exact hd
        · exact hpre e h2
      · cases c with
        | mk nm t ct nc f ch =>
          have hd2 : ¬ d.name = nm := by simpa [GNode.name] using hd
          simp only [insert_merge, if_neg hd2, List.cons_append]
          rw [heq]

theorem occSumTime_cons (tgt : Nat) (o : Nat × GNode) (occs : List (Nat × GNode)) :
    occSumTime tgt (o :: occs) =
      (if o.1 = tgt then o.2.time else 0) + occSumTime tgt occs := by
  by_cases h : o.1 = tgt <;> simp [occSumTime, List.filter_cons, h]

theorem occSumCalls_cons (tgt : Nat) (o : Nat × GNode) (occs : List (Nat × GNode)) :
    occSumCalls tgt (o :: occs) =
      (if o.1 = tgt then o.2.nr_calls else 0) + occSumCalls tgt occs := by
  by_cases h : o.1 = tgt <;> simp [occSumCalls, List.filter_cons, h]

theorem build_cg_fold (tgt : Nat) (occs : List (Nat × GNode)) :
    ∀ root : GNode, root.time < w64 → root.nr_calls < w32 →
      (occs.foldl
        (fun root occ =>
          if occ.1 = tgt then
            GNode.mk root.name (add64 root.time occ.2.time)
              (add64 root.child_time occ.2.child_time)
              (add32 root.nr_calls occ.2.nr_calls) root.folded
              (copy_graph_node root.children occ.2.children)
          else root) root).name = root.name ∧
      (occs.foldl
        (fun root occ =>
          if occ.1 = tgt then
            GNode.mk root.name (add64 root.time occ.2.time)
              (add64 root.child_time occ.2.child_time)
              (add32 root.nr_calls occ.2.nr_calls) root.folded
              (copy_graph_node root.children occ.2.children)
          else root) root).time = (root.time + occSumTime tgt occs) % w64 ∧
      (occs.foldl
        (fun root occ =>
          if occ.1 = tgt then
            GNode.mk root.name (add64 root.time occ.2.time)
              (add64 root.child_time occ.2.child_time)
              (add32 root.nr_calls occ.2.nr_calls) root.folded
              (copy_graph_node root.children occ.2.children)
          else root) root).nr_calls =
        (root.nr_calls + occSumCalls tgt occs) % w32 := by
  induction occs with
  | nil =>
    intro root ht hc
    refine ⟨rfl, ?_, ?_⟩ <;> simp [occSumTime, occSumCalls, Nat.mod_eq_of_lt, ht, hc]
  | cons o os ih =>
    intro root ht hc
    by_cases ho : o.1 = tgt
    · have hstep := ih (GNode.mk root.name (add64 root.time o.2.time)
        (add64 root.child_time o.2.child_time)
        (add32 root.nr_calls o.2.nr_calls) root.folded
        (copy_graph_node root.children o.2.children))
        (by simp [GNode.time, add64, Nat.mod_lt, w64_pos])
        (by simp [GNode.nr_calls, add32, Nat.mod_lt, w32_pos])
      simp only [List.foldl_cons, if_pos ho]
      refine ⟨by rw [hstep.1]; rfl, ?_, ?_⟩
      · rw [hstep.2.1]
        simp only [GNode.time, add64, occSumTime_cons, if_pos ho]
        rw [Nat.mod_add_mod]
        ring_nf
      · rw [hstep.2.2]
        simp only [GNode.nr_calls, add32, occSumCalls_cons, if_pos ho]
        rw [Nat.mod_add_mod]
        ring_nf
    · have hstep := ih root ht hc
      simp only [List.foldl_cons, if_neg ho]
      refine ⟨hstep.1, ?_, ?_⟩
      · rw [hstep.2.1, occSumTime_cons, if_neg ho, Nat.zero_add]
      · rw [hstep.2.2, occSumCalls_cons, if_neg ho, Nat.zero_add]

/-- C4: the partial graph's Call Graph section holds exactly one node, named
after the pivot; its call count and time are the sums of the call counts and
inclusive times of the pivot occurrences belonging to the focused session;
and one merge step of copy_graph_node sums a source child into the first
same-named child at the current merge position when one exists, appending a
fresh branch at the end only when none does. -/
theorem c4_call_graph_section (p : String) (tgt : Nat)
    (occs : List (Nat × GNode)) (h1 : occSumTime tgt occs < w64)
    (h2 : occSumCalls tgt occs < w32) :
    ((build_call_graph_section p tgt occs).children.map GNode.name = [p]) ∧
      (build_call_graph p tgt occs).name = p ∧
      (build_call_graph p tgt occs).time = occSumTime tgt occs ∧
      (build_call_graph p tgt occs).nr_calls = occSumCalls tgt occs ∧
      (∀ dst c, (∀ d ∈ dst, d.name ≠ c.name) →
        insert_merge dst c = dst ++ [update_merge_node (zeroG c.name) c]) ∧
      (∀ dst c, (∃ d ∈ dst, d.name = c.name) →
        ∃ pre d post, dst = pre ++ d :: post ∧
          (∀ e ∈ pre, e.name ≠ c.name) ∧ d.name = c.name ∧
          insert_merge dst c = pre ++ update_merge_node d c :: post) := by
  have hf := build_cg_fold tgt occs (zeroG p) (by simp [zeroG, GNode.time, w64_pos])
    (by simp [zeroG, GNode.nr_calls, w32_pos])
  have hname : (build_call_graph p tgt occs).name = p := by
    have := hf.1
    simpa [build_call_graph, zeroG, GNode.name] using this
  have htime : (build_call_graph p tgt occs).time = occSumTime tgt occs := by
    have := hf.2.1
    simpa [build_call_graph, zeroG, GNode.time, Nat.mod_eq_of_lt h1] using this
  have hcalls : (build_call_graph p tgt occs).nr_calls = occSumCalls tgt occs := by
    have := hf.2.2
    simpa [build_call_graph, zeroG, GNode.nr_calls, Nat.mod_eq_of_lt h2]
      using this
  refine ⟨?_, hname, htime, hcalls, insert_merge_not_found, insert_merge_found⟩
  simp [build_call_graph_section, GNode.children, hname]

/-- Witness for C4: three occurrences of the pivot, two in the focused
session. -/
theorem c4_call_graph_section_witness :
    ((build_call_graph_section "bar" 1
        [(1, .mk "bar" 30 10 2 false []), (2, .mk "bar" 9 0 5 false []),
          (1, .mk "bar" 12 0 1 false [])]).children.map GNode.name = ["bar"]) ∧
      (build_call_graph "bar" 1
        [(1, .mk "bar" 30 10 2 false []), (2, .mk "bar" 9 0 5 false []),
          (1, .mk "bar" 12 0 1 false [])]).time = 42 ∧
      (build_call_graph "bar" 1
        [(1, .mk "bar" 30 10 2 false []), (2, .mk "bar" 9 0 5 false []),
          (1, .mk "bar" 12 0 1 false [])]).nr_calls = 3 := by
  have h := c4_call_graph_section "bar" 1
    [(1, .mk "bar" 30 10 2 false []), (2, .mk "bar" 9 0 5 false []),
      (1, .mk "bar" 12 0 1 false [])] (by decide) (by decide)
  have hT : occSumTime 1
      [(1, GNode.mk "bar" 30 10 2 false []), (2, .mk "bar" 9 0 5 false []),
        (1, .mk "bar" 12 0 1 false [])] = 42 := by decide
  have hC : occSumCalls 1
      [(1, GNode.mk "bar" 30 10 2 false []), (2, .mk "bar" 9 0 5 false []),
        (1, .mk "bar" 12 0 1 false [])] = 3 := by decide
  exact ⟨h.1, by rw [h.2.2.1, hT], by rw [h.2.2.2.1, hC]⟩

theorem sizeOf_child_le {x : GNode} {ch : List GNode} (hx : x ∈ ch)
    {nm : String} {t ct nc : Nat} {f : Bool} {N : Nat}
    (h : sizeOf (GNode.mk nm t ct nc f ch) ≤ N + 1) : sizeOf x ≤ N := by
  have h1 := List.sizeOf_lt_of_mem hx
  simp only [GNode.mk.sizeOf_spec] at h
  omega

theorem sizeOf_gnode_pos (n : GNode) : 0 < sizeOf n := by
  cases n
  simp only [GNode.mk.sizeOf_spec]
  omega

theorem fold_list_eq (b : Bool) (l : List GNode) :
    fold_list b l = (l.map fun c => (fold_graph_node b c).1,
      (l.map fun c => (fold_graph_node b c).2).sum) := by
  induction l with
  | nil => simp [fold_list]
  | cons c cs ih => simp [fold_list, ih]

theorem set_desc_children (b : Bool) (m : GNode) :
    (set_desc b m).children = m.children.map (set_desc b) := by
  cases m with
  | mk nm t ct nc f ch =>
    cases ch with
    | nil => simp [set_desc, GNode.children]
    | cons c cs =>
      simp [set_desc, GNode.children, List.attach_map_val]

theorem set_desc_folded (b : Bool) (m : GNode) :
    (set_desc b m).folded = (if m.children.isEmpty then m.folded else b) := by
  cases m with
  | mk nm t ct nc f ch =>
    cases ch with
    | nil => simp [set_desc, GNode.folded, GNode.children]
    | cons c cs => simp [set_desc, GNode.folded, GNode.children]

theorem set_desc_stats (b : Bool) (m : GNode) :
    (set_desc b m).name = m.name ∧ (set_desc b m).time = m.time ∧
      (set_desc b m).child_time = m.child_time ∧
      (set_desc b m).nr_calls = m.nr_calls := by
  cases m with
  | mk nm t ct nc f ch =>
    cases ch with
    | nil => simp [set_desc, GNode.name, GNode.time, GNode.child_time,
        GNode.nr_calls]
    | cons c cs => simp [set_desc, GNode.name, GNode.time, GNode.child_time,
        GNode.nr_calls]

theorem fold_graph_node_eq_aux (b : Bool) :
    ∀ (N : Nat) (n : GNode), sizeOf n ≤ N →
      fold_graph_node b n = (set_desc b n, cnt_desc b n) := by
  intro N
  induction N with
  | zero =>
    intro n h
    exact absurd h (by have := sizeOf_gnode_pos n; omega)
  | succ N ih =>
    intro n h
    cases n with
    | mk nm t ct nc f ch =>
      cases ch with
      | nil => simp [fold_graph_node, set_desc, cnt_desc]
      | cons c cs =>
        have hmem : ∀ x ∈ c :: cs,
            fold_graph_node b x = (set_desc b x, cnt_desc b x) :=
          fun x hx => ih x (sizeOf_child_le hx h)
        have hmap1 : ((c :: cs).map fun x => (fold_graph_node b x).1) =
            (c :: cs).map (set_desc b) :=
          List.map_congr_left fun x hx => by rw [hmem x hx]
        have hmap2 : ((c :: cs).map fun x => (fold_graph_node b x).2) =
            (c :: cs).map (cnt_desc b) :=
          List.map_congr_left fun x hx => by rw [hmem x hx]
        show (let self := if f = b then 0 else 1
          let rest := fold_list b (c :: cs)
          ((GNode.mk nm t ct nc b rest.1 : GNode), self + rest.2)) = _
        rw [fold_list_eq, hmap1, hmap2]
        simp only [set_desc, cnt_desc, List.attach_map_val]

theorem fold_graph_node_eq (b : Bool) (n : GNode) :
    fold_graph_node b n = (set_desc b n, cnt_desc b n) :=
  fold_graph_node_eq_aux b (sizeOf n) n le_rfl

theorem win_collapse_graph_eq (n : GNode) :
    win_collapse_graph n =
      (fold_spec true n, (n.children.map (cnt_desc true)).sum) := by
  unfold win_collapse_graph fold_spec
  rw [fold_list_eq]
  have hmap1 : (n.children.map fun c => (fold_graph_node true c).1) =
      n.children.map (set_desc true) :=
    List.map_congr_left fun x _ => by rw [fold_graph_node_eq]
  have hmap2 : (n.children.map fun c => (fold_graph_node true c).2) =
      n.children.map (cnt_desc true) :=
    List.map_congr_left fun x _ => by rw [fold_graph_node_eq]
  rw [hmap1, hmap2]

theorem win_expand_graph_eq (n : GNode) :
    win_expand_graph n =
      (fold_spec false n, (n.children.map (cnt_desc false)).sum) := by
  unfold win_expand_graph fold_spec
  rw [fold_list_eq]
  have hmap1 : (n.children.map fun c => (fold_graph_node false c).1) =
      n.children.map (set_desc false) :=
    List.map_congr_left fun x _ => by rw [fold_graph_node_eq]
  have hmap2 : (n.children.map fun c => (fold_graph_node false c).2) =
      n.children.map (cnt_desc false) :=
    List.map_congr_left fun x _ => by rw [fold_graph_node_eq]
  rw [hmap1, hmap2]

theorem lookup_set_desc (b : Bool) (m : GNode) :
    ∀ pos, lookupG (set_desc b m) pos = (lookupG m pos).map (set_desc b) := by
  intro pos
  induction pos with
  | nil => simp [lookupG]
  | cons i rest ih =>
    simp only [lookupG, ih]
    cases hm : lookupG m rest with
    | none => simp
    | some sub =>
      simp [set_desc_children, List.get?_eq_getElem?, List.getElem?_map]

theorem lookup_congr_children (n₁ n₂ : GNode) (h : n₁.children = n₂.children) :
    ∀ pos, pos ≠ [] → lookupG n₁ pos = lookupG n₂ pos := by
  intro pos
  induction pos with
  | nil => intro hne; exact absurd rfl hne
  | cons i rest ih =>
    intro _
    cases rest with
    | nil => simp [lookupG, h]
    | cons j rest2 =>
      show (match lookupG n₁ (j :: rest2) with
        | some m => m.children.get? i
        | none => none) =
        (match lookupG n₂ (j :: rest2) with
        | some m => m.children.get? i
        | none => none)
      rw [ih (by simp)]

theorem cnt_desc_cons (b : Bool) (nm : String) (t ct nc : Nat) (f : Bool)
    (c : GNode) (cs : List GNode) :
    cnt_desc b (GNode.mk nm t ct nc f (c :: cs)) =
      (if f = b then 0 else 1) + ((c :: cs).map (cnt_desc b)).sum := by
  simp [cnt_desc, List.attach_map_val]

theorem all_set_cons_iff (b : Bool) (nm : String) (t ct nc : Nat) (f : Bool)
    (c : GNode) (cs : List GNode) :
    all_set b (GNode.mk nm t ct nc f (c :: cs)) = true ↔
      (f = b ∧ ∀ x ∈ c :: cs, all_set b x = true) := by
  simp only [all_set, Bool.and_eq_true, beq_iff_eq, List.all_eq_true,
    List.mem_attach, true_implies, Subtype.forall]

theorem cnt_desc_zero_iff (b : Bool) :
    ∀ (N : Nat) (n : GNode), sizeOf n ≤ N →
      (cnt_desc b n = 0 ↔ all_set b n = true) := by
  intro N
  induction N with
  | zero =>
    intro n h
    exact absurd h (by have := sizeOf_gnode_pos n; omega)
  | succ N ih =>
    intro n h
    cases n with
    | mk nm t ct nc f ch =>
      cases ch with
      | nil => simp [cnt_desc, all_set]
      | cons c cs =>
        rw [cnt_desc_cons, all_set_cons_iff]
        constructor
        · intro hz
          have hself : (if f = b then 0 else 1) = 0 := by omega
          have hsum : ((c :: cs).map (cnt_desc b)).sum = 0 := by omega
          constructor
          · by_contra hf
            rw [if_neg hf] at hself
            omega
          · intro x hx
            have h0 : cnt_desc b x = 0 := by
              have hmem := List.mem_map_of_mem (cnt_desc b) hx
              exact List.sum_eq_zero_iff.mp hsum _ hmem
            exact (ih x (sizeOf_child_le hx h)).mp h0
        · intro hall
          rw [if_pos hall.1]
          have hsum : ((c :: cs).map (cnt_desc b)).sum = 0 := by
            apply List.sum_eq_zero
            intro y hy
            obtain ⟨x, hx, hxy⟩ := List.mem_map.mp hy
            subst hxy
            exact (ih x (sizeOf_child_le hx h)).mpr (hall.2 x hx)
          omega

theorem set_desc_set_desc (b b2 : Bool) :
    ∀ (N : Nat) (n : GNode), sizeOf n ≤ N →
      set_desc b (set_desc b2 n) = set_desc b n := by
  intro N
  induction N with
  | zero =>
    intro n h
    exact absurd h (by have := sizeOf_gnode_pos n; omega)
  | succ N ih =>
    intro n h
    cases n with
    | mk nm t ct nc f ch =>
      cases ch with
      | nil => simp [set_desc]
      | cons c cs =>
        have houter : set_desc b2 (GNode.mk nm t ct nc f (c :: cs)) =
            GNode.mk nm t ct nc b2 ((c :: cs).map (set_desc b2)) := by
          simp [set_desc, List.attach_map_val]
        rw [houter]
        have h2 : (c :: cs).map (set_desc b2) =
            set_desc b2 c :: cs.map (set_desc b2) := by simp
        rw [h2]
        have houter2 : set_desc b (GNode.mk nm t ct nc b2
            (set_desc b2 c :: cs.map (set_desc b2))) =
            GNode.mk nm t ct nc b
              ((set_desc b2 c :: cs.map (set_desc b2)).map (set_desc b)) := by
          simp [set_desc, List.attach_map_val]
        rw [houter2]
        have houter3 : set_desc b (GNode.mk nm t ct nc f (c :: cs)) =
            GNode.mk nm t ct nc b ((c :: cs).map (set_desc b)) := by
          simp [set_desc, List.attach_map_val]
        rw [houter3]
        congr 1
        simp only [List.map_cons, List.map_map]
        congr 1
        · exact ih c (sizeOf_child_le (by simp) h)
        · apply List.map_congr_left
          intro x hx
          simp only [Function.comp_apply]
          exact ih x (sizeOf_child_le (by simp [hx]) h)

theorem all_set_set_desc_id (b : Bool) :
    ∀ (N : Nat) (n : GNode), sizeOf n ≤ N → all_set b n = true →
      set_desc b n = n := by
  intro N
  induction N with
  | zero =>
    intro n h
    exact absurd h (by have := sizeOf_gnode_pos n; omega)
  | succ N ih =>
    intro n h hall
    cases n with
    | mk nm t ct nc f ch =>
      cases ch with
      | nil => simp [set_desc]
      | cons c cs =>
        rw [all_set_cons_iff] at hall
        have hf : f = b := hall.1
        have hch : ∀ x ∈ c :: cs, set_desc b x = x := fun x hx =>
          ih x (sizeOf_child_le hx h) (hall.2 x hx)
        simp only [set_desc, List.attach_map_val]
        rw [hf]
        congr 1
        rw [List.map_congr_left fun x hx => hch x hx]
        exact List.map_id _

/-- C6: collapse (symmetrically expand) rewrites exactly the strict
descendants of the current node -- the node's own fold flag and a leaf
descendant's flag are never touched, every non-leaf strict descendant's flag
becomes true (false) -- and the operation's count is the number of nodes
whose flag actually changed, so a fully-collapsed subtree collapses to count
0 and expanding then collapsing a fully-collapsed subtree restores the
original fold state. -/
theorem c6_collapse_expand :
    (∀ n, win_collapse_graph n =
      (fold_spec true n, (n.children.map (cnt_desc true)).sum)) ∧
    (∀ n, win_expand_graph n =
      (fold_spec false n, (n.children.map (cnt_desc false)).sum)) ∧
    (∀ (b : Bool) n, (fold_spec b n).folded = n.folded) ∧
    (∀ (b : Bool) n pos sub, pos ≠ [] → lookupG n pos = some sub →
      lookupG (fold_spec b n) pos = some (set_desc b sub)) ∧
    (∀ (b : Bool) sub, (set_desc b sub).folded =
      (if sub.children.isEmpty then sub.folded else b)) ∧
    (∀ (b : Bool) n, (cnt_desc b n = 0 ↔ all_set b n = true)) ∧
    (∀ n, (∀ c ∈ n.children, all_set true c = true) →
      (win_collapse_graph n).2 = 0) ∧
    (∀ n, (∀ c ∈ n.children, all_set true c = true) →
      (win_collapse_graph (win_expand_graph n).1).1 = n) := by
  refine ⟨win_collapse_graph_eq, win_expand_graph_eq, ?_, ?_, set_desc_folded,
    fun b n => cnt_desc_zero_iff b (sizeOf n) n le_rfl, ?_, ?_⟩
  · intro b n
    cases n
    simp [fold_spec, GNode.folded]
  · intro b n pos sub hpos hsub
    have hch : (fold_spec b n).children = (set_desc b n).children := by
      rw [set_desc_children]
      cases n
      simp [fold_spec, GNode.children]
    rw [lookup_congr_children _ _ hch pos hpos, lookup_set_desc, hsub]
    rfl
  · intro n hall
    rw [win_collapse_graph_eq]
    apply List.sum_eq_zero
    intro y hy
    obtain ⟨c, hc, hcy⟩ := List.mem_map.mp hy
    subst hcy
    exact (cnt_desc_zero_iff true (sizeOf c) c le_rfl).mpr (hall c hc)
  · intro n hall
    rw [win_expand_graph_eq, win_collapse_graph_eq]
    cases n with
    | mk nm t ct nc f ch =>
      simp only [fold_spec, GNode.name, GNode.time, GNode.child_time,
        GNode.nr_calls, GNode.folded, GNode.children, List.map_map]
      congr 1
      have hpt : ∀ x ∈ ch, (set_desc true ∘ set_desc false) x = x := by
        intro x hx
        simp only [Function.comp_apply]
        rw [set_desc_set_desc true false (sizeOf x) x le_rfl]
        exact all_set_set_desc_id true (sizeOf x) x le_rfl
          (hall x (by simpa [GNode.children] using hx))
      rw [List.map_congr_left hpt]
      exact List.map_id _

/-- Witness for C6 on concrete trees: a strict descendant of gEx after
collapse, a fully-collapsed subtree collapsing with count 0, and
expand-then-collapse restoring it. -/
theorem c6_collapse_expand_witness :
    lookupG (fold_spec true gEx) [0] =
        some (set_desc true (.mk "a" 10 4 1 false [.mk "b" 4 0 1 false []])) ∧
      (win_collapse_graph (.mk "r" 0 0 0 false
        [.mk "x" 1 0 1 true [.mk "y" 1 0 1 false []]])).2 = 0 ∧
      (win_collapse_graph (win_expand_graph (.mk "r" 0 0 0 false
        [.mk "x" 1 0 1 true [.mk "y" 1 0 1 false []]])).1).1 =
        .mk "r" 0 0 0 false [.mk "x" 1 0 1 true [.mk "y" 1 0 1 false []]] :=
  ⟨c6_collapse_expand.2.2.2.1 true gEx [0]
      (.mk "a" 10 4 1 false [.mk "b" 4 0 1 false []]) (by simp) rfl,
    c6_collapse_expand.2.2.2.2.2.2.1 _ (by
      intro c hc
      simp only [GNode.children, List.mem_singleton] at hc
      subst hc
      simp [all_set]),
    c6_collapse_expand.2.2.2.2.2.2.2 _ (by
      intro c hc
      simp only [GNode.children, List.mem_singleton] at hc
      subst hc
      simp [all_set])⟩

theorem visibleB_cons (root : GNode) (i : Nat) (rest : List Nat) :
    visibleB root (i :: rest) = true ↔
      (visibleB root rest = true ∧ ∃ m, lookupG root rest = some m ∧
        i < m.children.length ∧ (rest = [] ∨ m.folded = false)) := by
  cases hm : lookupG root rest with
  | none => simp [visibleB, hm]
  | some m =>
    simp only [visibleB, hm, Bool.and_eq_true, Bool.or_eq_true,
      decide_eq_true_eq, Option.some.injEq]
    constructor
    · rintro ⟨h1, h2, h3⟩
      refine ⟨h1, m, rfl, h2, ?_⟩
      rcases h3 with h3 | h3
      · exact Or.inl (List.isEmpty_iff.mp h3)
      · exact Or.inr (by simpa using h3)
    · rintro ⟨h1, m2, hm2, h2, h3⟩
      subst hm2
      refine ⟨h1, h2, ?_⟩
      rcases h3 with h3 | h3
      · exact Or.inl (by simp [h3])
      · exact Or.inr (by simp [h3])

theorem visible_suffix (root : GNode) :
    ∀ (x y : List Nat), visibleB root (x ++ y) = true →
      visibleB root y = true := by
  intro x
  induction x with
  | nil => intro y h; exact h
  | cons a x ih =>
    intro y h
    apply ih
    rw [List.cons_append] at h
    simp only [visibleB, Bool.and_eq_true] at h
    exact h.1

theorem visible_lookup (root : GNode) :
    ∀ (p : List Nat), visibleB root p = true →
      ∃ m, lookupG root p = some m := by
  intro p
  induction p with
  | nil => intro _; exact ⟨root, rfl⟩
  | cons i rest ih =>
    intro h
    obtain ⟨h1, m, hm, hlen, _⟩ := (visibleB_cons root i rest).mp h
    have hstep : lookupG root (i :: rest) = m.children.get? i := by
      simp [lookupG, hm]
    rw [hstep]
    exact ⟨_, List.get?_eq_some.mpr ⟨hlen, rfl⟩⟩

theorem lookupG_cons (root : GNode) (i : Nat) (rest : List Nat) (m : GNode)
    (hm : lookupG root rest = some m) :
    lookupG root (i :: rest) = m.children.get? i := by
  simp [lookupG, hm]

theorem getLast?_of_len (l : List GNode) (k : Nat) (hk : k + 1 = l.length) :
    l.getLast? = l.get? k := by
  rw [List.getLast?_eq_getElem?, List.get?_eq_getElem?]
  congr 1
  omega

theorem descend_last_chain (root : GNode) :
    ∀ (preR a : List Nat) (m : GNode), a ≠ [] → lookupG root a = some m →
      last_chainR root preR a →
      (∃ fn, lookupG root (preR.reverse ++ a) = some fn ∧ stopB fn = true) →
      descend_last m a = preR.reverse ++ a := by
  intro preR
  induction preR with
  | nil =>
    intro a m ha hm hch hstop
    obtain ⟨fn, hfn, hsb⟩ := hstop
    simp only [List.reverse_nil, List.nil_append] at hfn ⊢
    rw [hm] at hfn
    obtain rfl : m = fn := by injection hfn
    cases m with
    | mk nm t ct nc f ch =>
      simp only [stopB, GNode.children, GNode.folded, Bool.or_eq_true,
        List.isEmpty_iff] at hsb
      rcases hsb with h1 | h1
      · subst h1
        simp [descend_last]
      · subst h1
        rw [descend_last]
        cases hL : ch.getLast? with
        | none => rfl
        | some c => simp
  | cons k t ih =>
    intro a m ha hm hch hstop
    obtain ⟨⟨m2, hm2, hklen, hunf⟩, hch2⟩ := hch
    obtain rfl : m = m2 := by rw [hm] at hm2; injection hm2
    have hunf2 : m.folded = false := by
      rcases hunf with h | h
      · exact absurd h ha
      · exact h
    have hfull : (k :: t).reverse ++ a = t.reverse ++ (k :: a) := by simp
    cases m with
    | mk nm t2 ct nc f ch =>
      simp only [GNode.children] at hklen
      simp only [GNode.folded] at hunf2
      subst hunf2
      have hlast : ch.getLast? = ch.get? k := getLast?_of_len ch k hklen
      have hget : ∃ c, ch.get? k = some c :=
        ⟨_, List.get?_eq_some.mpr ⟨by omega, rfl⟩⟩
      obtain ⟨c, hc⟩ := hget
      rw [descend_last]
      rw [hlast, hc]
      simp only [Bool.false_eq_true, if_false]
      have hlen1 : ch.length - 1 = k := by omega
      rw [hlen1]
      have hcpos : lookupG root (k :: a) = some c := by
        rw [lookupG_cons root k a _ hm]
        simpa [GNode.children] using hc
      have hres := ih (k :: a) c (by simp) hcpos hch2 (by
        rw [← hfull]; exact hstop)
      rw [hres, hfull]

theorem climb_next_chain (root : GNode) :
    ∀ (preR a : List Nat), last_chainR root preR a →
      climb_next root (preR.reverse ++ a) = climb_next root a := by
  intro preR
  induction preR with
  | nil => intro a _; simp
  | cons k t ih =>
    intro a hch
    obtain ⟨⟨m, hm, hklen, _⟩, hch2⟩ := hch
    have hfull : (k :: t).reverse ++ a = t.reverse ++ (k :: a) := by simp
    rw [hfull, ih (k :: a) hch2]
    show climb_next root (k :: a) = climb_next root a
    simp only [climb_next, hm]
    rw [if_neg (by omega)]

theorem descend_last_none (nm : String) (t ct nc : Nat) (f : Bool)
    (ch : List GNode) (a : List Nat) (hL : ch.getLast? = none) :
    descend_last (GNode.mk nm t ct nc f ch) a = a := by
  rw [descend_last]
  split
  · rfl
  · rename_i c hsome
    rw [hL] at hsome
    cases hsome

theorem descend_last_folded (nm : String) (t ct nc : Nat)
    (ch : List GNode) (a : List Nat) :
    descend_last (GNode.mk nm t ct nc true ch) a = a := by
  rw [descend_last]
  split
  · rfl
  · simp

theorem descend_last_step (nm : String) (t ct nc : Nat)
    (ch : List GNode) (a : List Nat) (c : GNode)
    (hL : ch.getLast? = some c) :
    descend_last (GNode.mk nm t ct nc false ch) a =
      descend_last c ((ch.length - 1) :: a) := by
  rw [descend_last]
  split
  · rename_i hnone
    rw [hL] at hnone
    cases hnone
  · rename_i c2 hsome
    rw [hL] at hsome
    obtain rfl : c = c2 := by injection hsome
    simp

theorem descend_last_spec (root : GNode) :
    ∀ (N : Nat) (m : GNode), sizeOf m ≤ N → ∀ (a : List Nat),
      lookupG root a = some m →
      ∃ preR, descend_last m a = preR.reverse ++ a ∧
        last_chainR root preR a ∧
        (∃ fn, lookupG root (descend_last m a) = some fn ∧
          stopB fn = true) := by
  intro N
  induction N with
  | zero =>
    intro m h
    exact absurd h (by have := sizeOf_gnode_pos m; omega)
  | succ N ih =>
    intro m h a hma
    cases m with
    | mk nm t ct nc f ch =>
      cases hL : ch.getLast? with
      | none =>
        have hstep := descend_last_none nm t ct nc f ch a hL
        refine ⟨[], by simp [hstep], trivial, ?_⟩
        rw [hstep]
        refine ⟨_, hma, ?_⟩
        have : ch = [] := List.getLast?_eq_none_iff.mp hL
        subst this
        simp [stopB, GNode.children]
      | some c =>
        cases hf : f with
        | true =>
          subst hf
          have hstep := descend_last_folded nm t ct nc ch a
          refine ⟨[], by simp [hstep], trivial, ?_⟩
          rw [hstep]
          exact ⟨_, hma, by simp [stopB, GNode.folded]⟩
        | false =>
          subst hf
          have hne : ch ≠ [] := by
            intro hempty
            rw [hempty] at hL
            simp at hL
          have hlen : 0 < ch.length := List.length_pos.mpr hne
          have hlast : ch.getLast? = ch.get? (ch.length - 1) :=
            getLast?_of_len ch (ch.length - 1) (by omega)
          have hc : ch.get? (ch.length - 1) = some c := by rw [← hlast, hL]
          have hcpos : lookupG root ((ch.length - 1) :: a) = some c := by
            rw [lookupG_cons root _ a _ hma]
            simpa [GNode.children] using hc
          have hszc : sizeOf c ≤ N := by
            apply sizeOf_child_le (List.mem_of_getLast?_eq_some hL) h
          obtain ⟨preR, hres, hch, hstop⟩ :=
            ih c hszc ((ch.length - 1) :: a) hcpos
          have hstep := descend_last_step nm t ct nc ch a c hL
          refine ⟨(ch.length - 1) :: preR, ?_, ?_, ?_⟩
          · rw [hstep, hres]
            simp
          · refine ⟨⟨_, hma, by simp [GNode.children]; omega, ?_⟩, hch⟩
            exact Or.inr (by simp [GNode.folded])
          · rw [hstep]
            exact hstop

theorem climb_next_prev_aux (root : GNode) :
    ∀ (a preR q : List Nat),
      visibleB root (preR.reverse ++ a) = true →
      (∃ fn, lookupG root (preR.reverse ++ a) = some fn ∧ stopB fn = true) →
      last_chainR root preR a →
      climb_next root a = some q →
      graph_prev_node root q = some (preR.reverse ++ a) := by
  intro a
  induction a with
  | nil =>
    intro preR q _ _ _ hclimb
    simp [climb_next] at hclimb
  | cons j s ih =>
    intro preR q hvis hstop hch hclimb
    have hvis2 : visibleB root (j :: s) = true :=
      visible_suffix root preR.reverse (j :: s) hvis
    obtain ⟨hvs, par, hpar, hjlen, hunf⟩ := (visibleB_cons root j s).mp hvis2
    simp only [climb_next, hpar] at hclimb
    by_cases hlt : j + 1 < par.children.length
    · rw [if_pos hlt] at hclimb
      obtain rfl : (j + 1) :: s = q := by injection hclimb
      show graph_prev_node root ((j + 1) :: s) = _
      have hsib : lookupG root (j :: s) = par.children.get? j := by
        exact lookupG_cons root j s par hpar
      obtain ⟨sib, hsibv⟩ := visible_lookup root (j :: s) hvis2
      simp only [graph_prev_node]
      rw [if_neg (by omega)]
      have hidx : j + 1 - 1 = j := by omega
      rw [hidx]
      simp only [hsibv]
      rw [descend_last_chain root preR (j :: s) sib (by simp) hsibv hch hstop]
    · rw [if_neg hlt] at hclimb
      have hfull : (j :: preR).reverse ++ s = preR.reverse ++ (j :: s) := by
        simp
      have hch2 : last_chainR root (j :: preR) s := by
        refine ⟨⟨par, hpar, by omega, hunf⟩, hch⟩
      have := ih (j :: preR) q (by rw [hfull]; exact hvis)
        (by rw [hfull]; exact hstop) hch2 hclimb
      rw [hfull] at this
      exact this

theorem stop_of_next_no_descend (cur : GNode) (pos : List Nat)
    (hcond : ((!cur.children.isEmpty) && (pos.isEmpty || !cur.folded)) = false)
    (hpos : pos ≠ [] ∨ cur.children.isEmpty = true) :
    stopB cur = true := by
  rcases hpos with hpos | hpos
  · cases hemp : cur.children.isEmpty with
    | true => simp [stopB, hemp]
    | false =>
      cases hfold : cur.folded with
      | true => simp [stopB, hfold]
      | false =>
        exfalso
        cases pos with
        | nil => exact hpos rfl
        | cons x xs => simp [hemp, hfold] at hcond
  · simp [stopB, hpos]

theorem graph_next_prev_inverse (root : GNode) (p q : List Nat)
    (hvis : visibleB root p = true)
    (hnext : graph_next_node root p = some q) :
    graph_prev_node root q = some p := by
  obtain ⟨cur, hcur⟩ := visible_lookup root p hvis
  simp only [graph_next_node, hcur] at hnext
  by_cases hcond : ((!cur.children.isEmpty) && (p.isEmpty || !cur.folded)) = true
  · rw [if_pos hcond] at hnext
    obtain rfl : 0 :: p = q := by injection hnext
    simp [graph_prev_node]
  · rw [if_neg (by simpa using hcond)] at hnext
    have hstop : stopB cur = true := by
      apply stop_of_next_no_descend cur p (by simpa using hcond)
      cases p with
      | nil =>
        right
        by_contra hne
        simp [hne] at hcond
      | cons x xs => left; simp
    have := climb_next_prev_aux root p [] q (by simpa using hvis)
      ⟨cur, by simpa using hcur, hstop⟩ trivial hnext
    simpa using this

theorem graph_prev_next_inverse (root : GNode) (p q : List Nat)
    (hvis : visibleB root p = true)
    (hprev : graph_prev_node root p = some q) :
    graph_next_node root q = some p := by
  cases p with
  | nil => simp [graph_prev_node] at hprev
  | cons i rest =>
    obtain ⟨hvs, par, hpar, hilen, hunf⟩ := (visibleB_cons root i rest).mp hvis
    by_cases hi : i = 0
    · subst hi
      have hprev2 : some rest = some q := by
        simpa [graph_prev_node] using hprev
      have hq : q = rest := by injection hprev2 with h; exact h.symm
      rw [hq]
      simp only [graph_next_node, hpar]
      have hnonempty : par.children.isEmpty = false := by
        have h0 : 0 < par.children.length := hilen
        cases hc : par.children with
        | nil => rw [hc] at h0; simp at h0
        | cons a as => simp
      have hcond : ((!par.children.isEmpty) && (rest.isEmpty || !par.folded)) =
          true := by
        rcases hunf with h | h
        · subst h; simp [hnonempty]
        · simp [hnonempty, h]
      rw [if_pos hcond]
    · simp only [graph_prev_node, if_neg hi] at hprev
      have hsib : ∃ sib, lookupG root ((i - 1) :: rest) = some sib := by
        rw [lookupG_cons root (i - 1) rest par hpar]
        exact ⟨_, List.get?_eq_some.mpr ⟨by omega, rfl⟩⟩
      obtain ⟨sib, hsibv⟩ := hsib
      rw [hsibv] at hprev
      simp only at hprev
      obtain rfl : descend_last sib ((i - 1) :: rest) = q := by
        injection hprev
      obtain ⟨preR, hres, hch, fn, hfn, hsb⟩ :=
        descend_last_spec root (sizeOf sib) sib le_rfl ((i - 1) :: rest) hsibv
      rw [hres] at hfn ⊢
      simp only [graph_next_node, hfn]
      have hqne : preR.reverse ++ (i - 1) :: rest ≠ [] := by simp
      have hcond : ((!fn.children.isEmpty) &&
          ((preR.reverse ++ (i - 1) :: rest).isEmpty || !fn.folded)) =
          false := by
        have hqne2 : (preR.reverse ++ (i - 1) :: rest).isEmpty = false := by
          cases hq : preR.reverse ++ (i - 1) :: rest with
          | nil => exact absurd hq hqne
          | cons x xs => simp
        rw [hqne2]
        simp only [stopB, Bool.or_eq_true] at hsb
        rcases hsb with h | h
        · simp [h]
        · simp [h]
      rw [if_neg (by simp [hcond])]
      rw [climb_next_chain root preR ((i - 1) :: rest) hch]
      simp only [climb_next, hpar]
      have hlt : i - 1 + 1 < par.children.length := by omega
      rw [if_pos hlt]
      have : i - 1 + 1 = i := by omega
      rw [this]

theorem rowIdx_mono (V : ViewSeq) : ∀ {a b : Nat}, a ≤ b →
    rowIdx V a ≤ rowIdx V b := by
  intro a b hab
  induction b with
  | zero => simp_all
  | succ b ih =>
    rcases Nat.lt_or_ge a (b + 1) with h | h
    · have := ih (by omega)
      simp only [rowIdx]
      omega
    · have : a = b + 1 := by omega
      subst this
      exact le_rfl

theorem rowIdx_strict_mono (V : ViewSeq) : ∀ {a b : Nat}, a < b →
    rowIdx V a < rowIdx V b := by
  intro a b hab
  have h1 : a + 1 ≤ b := hab
  have h2 := rowIdx_mono V h1
  simp only [rowIdx] at h2
  omega

theorem rowIdx_succ (V : ViewSeq) (p : Nat) :
    (rowIdx V (p + 1) : Int) = (rowIdx V p : Int) + 1 + blankI V p := by
  simp only [rowIdx, blankI]
  split <;> push_cast <;> ring

theorem advance_top_spec (V : ViewSeq) (H : Nat) (hH : 1 ≤ H) (c : Nat) :
    ∀ (fuel t : Nat), t ≤ c → c - t ≤ fuel →
      ∃ t2, advance_top V H fuel t (rowIdx V t) (rowIdx V c) = (t2, (rowIdx V t2 : Int)) ∧
        t ≤ t2 ∧ t2 ≤ c ∧ rowIdx V c - rowIdx V t2 < H := by
  intro fuel
  induction fuel with
  | zero =>
    intro t htc hfuel
    have : t = c := by omega
    subst this
    refine ⟨t, rfl, le_rfl, le_rfl, by omega⟩
  | succ fuel ih =>
    intro t htc hfuel
    by_cases hcond : ((rowIdx V c : Int) - (rowIdx V t : Int) ≥ (H : Int))
    · have htlt : t < c := by
        by_contra hge
        have : t = c := by omega
        subst this
        simp at hcond
        omega
      have hrow := rowIdx_succ V t
      have ihh := ih (t + 1) (by omega) (by omega)
      rw [advance_top, if_pos hcond]
      rw [show (rowIdx V t : Int) + 1 + blankI V t = (rowIdx V (t + 1) : Int) from (rowIdx_succ V t).symm]
      obtain ⟨t2, heq, h1, h2, h3⟩ := ihh
      exact ⟨t2, heq, by omega, h2, h3⟩
    · rw [advance_top, if_neg hcond]
      refine ⟨t, rfl, le_rfl, htc, ?_⟩
      push_neg at hcond
      have hmono := rowIdx_mono V htc
      omega

theorem move_down_inv (V : ViewSeq) (H : Nat) (hH : 1 ≤ H) (s : WinSt)
    (hs : winInv V H s) :
    (s.curr + 1 < V.len →
      winInv V H (tui_window_move_down V H s) ∧
      (tui_window_move_down V H s).curr = s.curr + 1) ∧
    (¬ s.curr + 1 < V.len → tui_window_move_down V H s = s) := by
  obtain ⟨h1, h2, h3, h4, h5⟩ := hs
  constructor
  · intro hlt
    have hci : s.curr_index + 1 + blankI V s.curr =
        (rowIdx V (s.curr + 1) : Int) := by
      rw [h4, rowIdx_succ]
    have hadv := advance_top_spec V H hH (s.curr + 1) V.len s.top
      (by omega) (by omega)
    obtain ⟨t2, heq, ht1, ht2, ht3⟩ := hadv
    have hres : tui_window_move_down V H s =
        ⟨t2, s.curr + 1, (rowIdx V t2 : Int), (rowIdx V (s.curr + 1) : Int)⟩ := by
      unfold tui_window_move_down
      rw [show vnext V s.curr = some (s.curr + 1) from by
        simp [vnext, if_pos hlt]]
      simp only
      rw [hci, h3, heq]
    rw [hres]
    exact ⟨⟨ht2, hlt, rfl, rfl, ht3⟩, rfl⟩
  · intro hge
    unfold tui_window_move_down
    rw [show vnext V s.curr = none from by simp [vnext]; omega]

theorem move_up_step (V : ViewSeq) (H : Nat) (s : WinSt)
    (hs : winInv V H s) :
    (0 < s.curr →
      winInv V H (tui_window_move_up V s) ∧
      (tui_window_move_up V s).curr = s.curr - 1 ∧
      (tui_window_move_up V s).top = min s.top (s.curr - 1)) ∧
    (s.curr = 0 → tui_window_move_up V s = s) := by
  obtain ⟨h1, h2, h3, h4, h5⟩ := hs
  constructor
  · intro hpos
    have hprev : vprev V s.curr = some (s.curr - 1) := by
      simp [vprev]
      omega
    have hci : s.curr_index - 1 - blankI V (s.curr - 1) =
        (rowIdx V (s.curr - 1) : Int) := by
      rw [h4]
      have hsucc := rowIdx_succ V (s.curr - 1)
      rw [show s.curr - 1 + 1 = s.curr from by omega] at hsucc
      rw [hsucc]
      ring
    by_cases hdrag : ((rowIdx V (s.curr - 1) : Int) < (rowIdx V s.top : Int))
    · have hlt : s.curr - 1 < s.top := by
        by_contra hge
        push_neg at hge
        have := rowIdx_mono V hge
        omega
      have htop : s.top = s.curr := by omega
      have hres : tui_window_move_up V s =
          ⟨s.top - 1, s.curr - 1, (rowIdx V (s.curr - 1) : Int),
            (rowIdx V (s.curr - 1) : Int)⟩ := by
        unfold tui_window_move_up
        rw [hprev]
        simp only [hci]
        rw [if_pos (show ((rowIdx V (s.curr - 1) : Int) < s.top_index) from by
          rw [h3]; exact hdrag)]
      rw [hres]
      have htop1 : s.top - 1 = s.curr - 1 := by omega
      refine ⟨⟨?_, ?_, ?_, rfl, ?_⟩, rfl, ?_⟩
      · show s.top - 1 ≤ s.curr - 1
        omega
      · show s.curr - 1 < V.len
        omega
      · show (rowIdx V (s.curr - 1) : Int) = (rowIdx V (s.top - 1) : Int)
        rw [htop1]
      · show rowIdx V (s.curr - 1) - rowIdx V (s.top - 1) < H
        rw [htop1]
        omega
      · show s.top - 1 = min s.top (s.curr - 1)
        rw [htop]
        have := Nat.min_eq_right (show s.curr - 1 ≤ s.curr from by omega)
        omega
    · push_neg at hdrag
      have hle : s.top ≤ s.curr - 1 := by
        by_contra hgt
        push_neg at hgt
        have := rowIdx_strict_mono V (show s.curr - 1 < s.top from hgt)
        omega
      have hres : tui_window_move_up V s =
          ⟨s.top, s.curr - 1, (rowIdx V s.top : Int),
            (rowIdx V (s.curr - 1) : Int)⟩ := by
        unfold tui_window_move_up
        rw [hprev]
        simp only [hci]
        rw [if_neg (show ¬((rowIdx V (s.curr - 1) : Int) < s.top_index) from by
          rw [h3]; push_neg; exact hdrag)]
        rw [h3]
      rw [hres]
      have ha := rowIdx_mono V hle
      have hb := rowIdx_mono V (show s.curr - 1 ≤ s.curr from by omega)
      refine ⟨⟨hle, ?_, rfl, rfl, ?_⟩, rfl, ?_⟩
      · show s.curr - 1 < V.len
        omega
      · show rowIdx V (s.curr - 1) - rowIdx V s.top < H
        omega
      · show s.top = min s.top (s.curr - 1)
        exact (Nat.min_eq_left hle).symm
  · intro hz
    unfold tui_window_move_up
    rw [show vprev V s.curr = none from by simp [vprev, hz]]

theorem winStart_inv (V : ViewSeq) (H : Nat) (hH : 1 ≤ H) (hlen : 0 < V.len) :
    winInv V H winStart := by
  refine ⟨le_rfl, hlen, ?_, ?_, ?_⟩ <;> simp [winStart, rowIdx] <;> omega

theorem winInv_curr_zero (V : ViewSeq) (H : Nat) (s : WinSt)
    (hs : winInv V H s) (hc : s.curr = 0) : s = winStart := by
  obtain ⟨h1, h2, h3, h4, h5⟩ := hs
  have ht0 : s.top = 0 := by omega
  rcases s with ⟨t, c, ti, ci⟩
  simp only at h3 h4 hc ht0
  subst hc ht0
  rw [h3, h4]
  simp [winStart, rowIdx]

theorem move_up_winStart (V : ViewSeq) :
    tui_window_move_up V winStart = winStart := by
  unfold tui_window_move_up
  rw [show vprev V winStart.curr = none from by simp [vprev, winStart]]

theorem up_iter (V : ViewSeq) (H : Nat) :
    ∀ (k : Nat) (s : WinSt), winInv V H s → s.curr ≤ k →
      (tui_window_move_up V)^[k] s = winStart := by
  intro k
  induction k with
  | zero =>
    intro s hs hc
    simp only [Function.iterate_zero, id]
    exact winInv_curr_zero V H s hs (by omega)
  | succ k ih =>
    intro s hs hc
    by_cases h0 : s.curr = 0
    · rw [winInv_curr_zero V H s hs h0]
      exact Function.iterate_fixed (move_up_winStart V) (k + 1)
    · have hpos : 0 < s.curr := by omega
      have hstep := (move_up_step V H s hs).1 hpos
      rw [Function.iterate_succ_apply]
      exact ih (tui_window_move_up V s) hstep.1 (by rw [hstep.2.1]; omega)

theorem down_iter (V : ViewSeq) (H : Nat) (hH : 1 ≤ H) (hlen : 0 < V.len) :
    ∀ N, winInv V H ((tui_window_move_down V H)^[N] winStart) ∧
      ((tui_window_move_down V H)^[N] winStart).curr = min N (V.len - 1) := by
  intro N
  induction N with
  | zero =>
    refine ⟨winStart_inv V H hH hlen, ?_⟩
    show (0 : Nat) = min 0 (V.len - 1)
    omega
  | succ N ih =>
    obtain ⟨hsinv, hscurr⟩ := ih
    rw [Function.iterate_succ_apply']
    by_cases hlt : ((tui_window_move_down V H)^[N] winStart).curr + 1 < V.len
    · have hstep := (move_down_inv V H hH _ hsinv).1 hlt
      refine ⟨hstep.1, ?_⟩
      rw [hstep.2, hscurr]
      rw [hscurr] at hlt
      omega
    · have hstep := (move_down_inv V H hH _ hsinv).2 hlt
      rw [hstep]
      refine ⟨hsinv, ?_⟩
      obtain ⟨_, hcl, _, _, _⟩ := hsinv
      rw [hscurr] at hlt ⊢
      omega

theorem updown_roundtrip (V : ViewSeq) (H : Nat) (hH : 1 ≤ H) (N : Nat) :
    (tui_window_move_up V)^[N]
      ((tui_window_move_down V H)^[N] winStart) = winStart := by
  by_cases hlen : 0 < V.len
  · obtain ⟨hinv, hcurr⟩ := down_iter V H hH hlen N
    exact up_iter V H N _ hinv (by rw [hcurr]; omega)
  · have hd : tui_window_move_down V H winStart = winStart := by
      unfold tui_window_move_down
      rw [show vnext V winStart.curr = none from by simp [vnext, winStart]; omega]
    rw [Function.iterate_fixed hd N, Function.iterate_fixed (move_up_winStart V) N]

/-- C5: in either view the step primitives are mutually inverse on interior
nodes -- for the graph view, graph_next_node and graph_prev_node invert each
other on every visible non-boundary position; for the report view, the
in-order step primitives invert each other -- and in the shared window
engine, N move-downs from the canonical top followed by N move-ups return
the cursor to the top with the same top/current nodes and row indices. -/
theorem c5_nav_inverse_roundtrip :
    (∀ (root : GNode) (p q : List Nat), visibleB root p = true →
      graph_next_node root p = some q → graph_prev_node root q = some p) ∧
    (∀ (root : GNode) (p q : List Nat), visibleB root p = true →
      graph_prev_node root p = some q → graph_next_node root q = some p) ∧
    (∀ (V : ViewSeq) (p q : Nat), vnext V p = some q → vprev V q = some p) ∧
    (∀ (V : ViewSeq) (p q : Nat), p < V.len → vprev V p = some q →
      vnext V q = some p) ∧
    (∀ (V : ViewSeq) (H : Nat), 1 ≤ H → ∀ N,
      (tui_window_move_up V)^[N]
        ((tui_window_move_down V H)^[N] winStart) = winStart) := by
  refine ⟨graph_next_prev_inverse, graph_prev_next_inverse, ?_, ?_,
    fun V H hH N => updown_roundtrip V H hH N⟩
  · intro V p q hnext
    unfold vnext at hnext
    split at hnext
    · obtain rfl : p + 1 = q := by injection hnext
      simp [vprev]
    · cases hnext
  · intro V p q hp hprev
    unfold vprev at hprev
    split at hprev
    · cases hprev
    · rename_i hne
      obtain rfl : p - 1 = q := by injection hprev
      simp only [vnext]
      rw [if_pos (by omega)]
      congr 1
      omega

/-- Witness for C5: the concrete tree gEx (root with children a -> b and c)
and the concrete view vEx. -/
theorem c5_nav_inverse_roundtrip_witness :
    graph_prev_node gEx [0, 0] = some [0] ∧
      graph_next_node gEx [0, 0] = some [1] ∧
      vprev vEx 2 = some 1 ∧
      vnext vEx 1 = some 2 ∧
      (tui_window_move_up vEx)^[4]
        ((tui_window_move_down vEx 2)^[4] winStart) = winStart :=
  ⟨c5_nav_inverse_roundtrip.1 gEx [0] [0, 0] (by decide) (by decide),
    c5_nav_inverse_roundtrip.2.1 gEx [1] [0, 0] (by decide) (by
      show graph_prev_node gEx [1] = some [0, 0]
      simp [graph_prev_node, lookupG, gEx, GNode.children, descend_last,
        GNode.folded]),
    c5_nav_inverse_roundtrip.2.2.1 vEx 1 2 (by decide),
    c5_nav_inverse_roundtrip.2.2.2.1 vEx 2 1 (by decide) (by decide),
    c5_nav_inverse_roundtrip.2.2.2.2 vEx 2 (by decide) 4⟩

theorem btLoop_length (T CT N : Nat) :
    ∀ (names : List String) (k : Nat),
      (btLoop T CT N names k).length = names.length := by
  intro names
  induction names with
  | nil => intro k; simp [btLoop]
  | cons nm rest ih => intro k; simp [btLoop, ih]

theorem btLoop_names (T CT N : Nat) :
    ∀ (names : List String) (k : Nat),
      (btLoop T CT N names k).map BTLevel.name = names := by
  intro names
  induction names with
  | nil => intro k; simp [btLoop]
  | cons nm rest ih => intro k; simp [btLoop, BTLevel.name, ih]

theorem btLoop_get (T CT N : Nat) :
    ∀ (names : List String) (k i : Nat) (lvl : BTLevel),
      (btLoop T CT N names k).get? i = some lvl →
      lvl.folded = (k + i == 1) := by
  intro names
  induction names with
  | nil => intro k i lvl h; simp [btLoop] at h
  | cons nm rest ih =>
    intro k i lvl h
    cases i with
    | zero =>
      simp only [btLoop, List.get?] at h
      obtain rfl : (⟨nm, T, CT, N, k == 1⟩ : BTLevel) = lvl := by injection h
      simp
    | succ i =>
      simp only [btLoop, List.get?] at h
      have := ih (k + 1) i lvl h
      rw [this]
      have harith : k + 1 + i = k + (i + 1) := by omega
      rw [harith]

/-- C8: in every materialized back-trace path, with more than two levels the
second level is folded and stays folded while every other level is unfolded;
with exactly two levels the final fold is undone and every level is unfolded;
a one-level path has no folded node.  The materialized names are exactly the
ancestor chain. -/
theorem c8_backtrace_folding (T CT N : Nat) (names : List String) :
    ((backtrace_path T CT N names).map BTLevel.name = names) ∧
      (2 < names.length → ∀ i lvl,
        (backtrace_path T CT N names).get? i = some lvl →
        (lvl.folded = true ↔ i = 1)) ∧
      (names.length = 2 → ∀ lvl ∈ backtrace_path T CT N names,
        lvl.folded = false) ∧
      (names.length = 1 → ∀ lvl ∈ backtrace_path T CT N names,
        lvl.folded = false) := by
  refine ⟨?_, ?_, ?_, ?_⟩
  · by_cases h2 : names.length = 2
    · obtain ⟨a, b, hab⟩ := List.length_eq_two.mp
        (show (btLoop T CT N names 0).length = 2 from by
          rw [btLoop_length]; exact h2)
      unfold backtrace_path
      rw [if_pos h2, hab]
      have hmap := btLoop_names T CT N names 0
      rw [hab] at hmap
      simpa [BTLevel.name] using hmap
    · unfold backtrace_path
      rw [if_neg h2]
      exact btLoop_names T CT N names 0
  · intro hlen i lvl hget
    have h2 : names.length ≠ 2 := by omega
    unfold backtrace_path at hget
    rw [if_neg h2] at hget
    have := btLoop_get T CT N names 0 i lvl hget
    rw [this]
    simp only [Nat.zero_add]
    constructor
    · intro h; simpa using h
    · intro h; subst h; rfl
  · intro h2 lvl hmem
    obtain ⟨a, b, hab⟩ := List.length_eq_two.mp
      (show (btLoop T CT N names 0).length = 2 from by
        rw [btLoop_length]; exact h2)
    unfold backtrace_path at hmem
    rw [if_pos h2, hab] at hmem
    have ha : a.folded = false := by
      have := btLoop_get T CT N names 0 0 a (by rw [hab]; rfl)
      simpa using this
    rcases List.mem_cons.mp hmem with h | h
    · subst h; exact ha
    · rcases List.mem_cons.mp h with h | h
      · subst h; rfl
      · simp at h
  · intro h1 lvl hmem
    have h2 : names.length ≠ 2 := by omega
    unfold backtrace_path at hmem
    rw [if_neg h2] at hmem
    obtain ⟨a, hab⟩ := List.length_eq_one.mp
      (show (btLoop T CT N names 0).length = 1 from by
        rw [btLoop_length]; exact h1)
    rw [hab] at hmem
    rcases List.mem_singleton.mp hmem with h
    subst h
    have := btLoop_get T CT N names 0 0 lvl (by rw [hab]; rfl)
    simpa using this

/-- Witness for C8: a three-level chain folds exactly its second level, a
two-level chain stays unfolded. -/
theorem c8_backtrace_folding_witness :
    ((backtrace_path 7 3 1 ["f", "g", "h"]).map BTLevel.name =
        ["f", "g", "h"]) ∧
      (∀ lvl, (backtrace_path 7 3 1 ["f", "g", "h"]).get? 1 = some lvl →
        lvl.folded = true) ∧
      (∀ lvl ∈ backtrace_path 7 3 1 ["f", "g"], lvl.folded = false) :=
  ⟨(c8_backtrace_folding 7 3 1 ["f", "g", "h"]).1,
    fun lvl hget =>
      ((c8_backtrace_folding 7 3 1 ["f", "g", "h"]).2.1 (by decide) 1 lvl
        hget).mpr rfl,
    (c8_backtrace_folding 7 3 1 ["f", "g"]).2.2.1 (by decide)⟩

/-- C9 counterexample: in a two-row report view with the cursor on the second
row, move-to-previous-sibling moves the current node (win_sibling_prev_no
delegates to the view's prev), so it is not a no-op. -/
theorem c9_sibling_counterexample :
    (tui_window_move_prev vRep2 sRep2).curr ≠ sRep2.curr := by decide

/-- C9 (amended): in the Report view the move-to-sibling operations resolve
the sibling through the view's prev/next primitive, so move-to-previous-
sibling equals exactly one move-up (a no-op only when the cursor is on the
first node) and move-to-next-sibling equals exactly one move-down (a no-op
only on the last node). -/
theorem c9_sibling_is_one_step (V : ViewSeq) (H : Nat) (s : WinSt) :
    tui_window_move_prev V s =
      (if s.curr = 0 then s else tui_window_move_up V s) ∧
    tui_window_move_next V H s =
      (if s.curr + 1 < V.len then tui_window_move_down V H s else s) := by
  constructor
  · by_cases h0 : s.curr = 0
    · rw [if_pos h0]
      unfold tui_window_move_prev win_sibling_prev_no
      rw [show vprev V s.curr = none from by simp [vprev, h0]]
    · rw [if_neg h0]
      unfold tui_window_move_prev win_sibling_prev_no
      rw [show vprev V s.curr = some (s.curr - 1) from by
        simp [vprev, h0]]
      simp only
      have hcurr : (tui_window_move_up V s).curr = s.curr - 1 := by
        unfold tui_window_move_up
        rw [show vprev V s.curr = some (s.curr - 1) from by
          simp [vprev, h0]]
        simp only
        split
        · rfl
        · rfl
      obtain ⟨k, hk⟩ := Nat.exists_eq_succ_of_ne_zero h0
      rw [hk]
      simp only [Nat.succ_sub_one]
      rw [show (Nat.succ k) = k + 1 from rfl, move_up_until]
      rw [if_neg (by omega)]
      have hcurr2 : (tui_window_move_up V s).curr = k := by
        rw [hcurr, hk]
        exact Nat.succ_sub_one k
      cases k with
      | zero => rw [move_up_until]
      | succ k2 =>
        rw [move_up_until, if_pos hcurr2]
  · by_cases hlt : s.curr + 1 < V.len
    · rw [if_pos hlt]
      unfold tui_window_move_next win_sibling_next_no
      rw [show vnext V s.curr = some (s.curr + 1) from by
        simp [vnext, hlt]]
      simp only
      have hcurr : (tui_window_move_down V H s).curr = s.curr + 1 := by
        unfold tui_window_move_down
        rw [show vnext V s.curr = some (s.curr + 1) from by
          simp [vnext, hlt]]
      obtain ⟨m, hm⟩ : ∃ m, V.len = m + 1 := ⟨V.len - 1, by omega⟩
      rw [hm]
      rw [move_down_until]
      rw [if_neg (by omega)]
      cases m with
      | zero => rw [move_down_until]
      | succ m2 =>
        rw [move_down_until, if_pos hcurr]
    · rw [if_neg hlt]
      unfold tui_window_move_next win_sibling_next_no
      rw [show vnext V s.curr = none from by simp [vnext]; omega]

/-- C7: a trace record whose session cannot be resolved (no session by task
id or parent pid, address not a kernel address) makes get_graph return NULL,
yet the exit branch of build_tui_node still creates and mutates a ReportNode
for the record's symbol: the report name tree changes, contradicting the
documented drop semantics. -/
theorem c7_unresolved_session_still_processed :
    get_graph none none 7 false [7] = none ∧
      build_tui_node_exit (get_graph none none 7 false [7]) NameTree.nil
          "foo" [] ⟨1, 100, 0⟩ ≠ NameTree.nil := by
  constructor
  · rfl
  · intro h
    rw [show build_tui_node_exit (get_graph none none 7 false [7])
        NameTree.nil "foo" [] ⟨1, 100, 0⟩ =
        NameTree.node NameTree.nil "foo"
          (build_exit_stats [] ⟨1, 100, 0⟩ zeroStats) NameTree.nil from rfl]
        at h
    cases h

theorem climb_next_d_special (root : GNode) :
    ∀ (pos : List Nat) (depth : Nat) (mask : Nat → Bool)
      (q : List Nat) (d2 : Nat) (m2 : Nat → Bool) (nq : GNode),
      climb_next_d root pos depth mask = some (q, d2, m2) →
      lookupG root q = some nq → is_special_node nq = true → d2 = 0 := by
  intro pos
  induction pos with
  | nil => intro depth mask q d2 m2 nq h; simp [climb_next_d] at h
  | cons i rest ih =>
    intro depth mask q d2 m2 nq h hq hsp
    simp only [climb_next_d] at h
    cases hpar : lookupG root rest with
    | none => rw [hpar] at h; simp at h
    | some par =>
      rw [hpar] at h
      simp only at h
      by_cases hlt : i + 1 < par.children.length
      · rw [if_pos hlt] at h
        cases hsib : par.children.get? (i + 1) with
        | none => rw [hsib] at h; simp at h
        | some sib =>
          rw [hsib] at h
          injection h with h2
          rw [Prod.mk.injEq] at h2
          obtain ⟨hq1, h3⟩ := h2
          rw [Prod.mk.injEq] at h3
          obtain ⟨hd, _⟩ := h3
          subst hq1
          rw [lookupG_cons root (i + 1) rest par hpar, hsib] at hq
          obtain rfl : sib = nq := by injection hq
          rw [← hd, if_pos hsp]
      · rw [if_neg hlt] at h
        split at h
        · exact ih _ _ q d2 m2 nq h hq hsp
        · exact ih _ _ q d2 m2 nq h hq hsp

theorem head?_eq_get?_zero (l : List GNode) : l.head? = l.get? 0 := by
  cases l <;> simp

theorem graph_next_node_d_special (root : GNode) (pos : List Nat)
    (depth : Nat) (mask : Nat → Bool) (q : List Nat) (d2 : Nat)
    (m2 : Nat → Bool) (nq : GNode)
    (h : graph_next_node_d root pos depth mask = some (q, d2, m2))
    (hq : lookupG root q = some nq) (hsp : is_special_node nq = true) :
    d2 = 0 := by
  unfold graph_next_node_d at h
  cases hcur : lookupG root pos with
  | none => rw [hcur] at h; simp at h
  | some cur =>
    rw [hcur] at h
    simp only at h
    by_cases hcond : ((!cur.children.isEmpty) &&
        (pos.isEmpty || !cur.folded)) = true
    · rw [if_pos hcond] at h
      cases hhead : cur.children.head? with
      | none => rw [hhead] at h; simp at h
      | some child =>
        rw [hhead] at h
        injection h with h2
        rw [Prod.mk.injEq] at h2
        obtain ⟨hq1, h3⟩ := h2
        rw [Prod.mk.injEq] at h3
        obtain ⟨hd, _⟩ := h3
        subst hq1
        rw [lookupG_cons root 0 pos cur hcur] at hq
        rw [← head?_eq_get?_zero, hhead] at hq
        obtain rfl : child = nq := by injection hq
        rw [← hd, if_pos hsp]
    · rw [if_neg (by simpa using hcond)] at h
      exact climb_next_d_special root pos depth _ q d2 m2 nq h hq hsp

/-- C10: a graph node is classified as a synthetic special section node
exactly when its display name's first character is an equals sign; forward
traversal forces the depth of any special node it steps onto to 0 (and does
not force it for non-special nodes); the three synthetic section names
produced by the partial-graph builder all begin with the equals sign; and
rendering prints special nodes bare, without fold sign or call count. -/
theorem c10_special_node_classification :
    (∀ n : GNode, is_special_node n = true ↔
      ∃ cs, n.name.data = Char.ofNat 61 :: cs) ∧
    is_special_node (GNode.mk backtrace_section_name 0 0 0 false []) = true ∧
    is_special_node (GNode.mk call_graph_section_name 0 0 0 false []) = true ∧
    (∀ s, is_special_node
      (GNode.mk (pgraph_root_name s) 0 0 0 false []) = true) ∧
    (∀ (root : GNode) (pos : List Nat) (depth : Nat) (mask : Nat → Bool)
      (q : List Nat) (d2 : Nat) (m2 : Nat → Bool) (nq : GNode),
      graph_next_node_d root pos depth mask = some (q, d2, m2) →
      lookupG root q = some nq → is_special_node nq = true → d2 = 0) ∧
    (∃ (root : GNode) (pos : List Nat) (depth : Nat) (mask : Nat → Bool)
      (res : List Nat × Nat × (Nat → Bool)) (nq : GNode),
      graph_next_node_d root pos depth mask = some res ∧
      lookupG root res.1 = some nq ∧ is_special_node nq = false ∧
      res.2.1 ≠ 0) ∧
    (∀ n fs, is_special_node n = true → display_line n fs = .sect n.name) ∧
    (∀ n fs, is_special_node n = false →
      display_line n fs = .func fs n.nr_calls n.name) := by
  refine ⟨?_, by decide, by decide, ?_, graph_next_node_d_special, ?_, ?_, ?_⟩
  · intro n
    cases n with
    | mk nm t ct nc f ch =>
      simp only [GNode.name]
      cases hdata : nm.data with
      | nil => simp [is_special_node, GNode.name, hdata]
      | cons c rest =>
        simp only [is_special_node, GNode.name, hdata]
        constructor
        · intro h
          exact ⟨rest, by rw [beq_iff_eq.mp h]⟩
        · rintro ⟨cs, hcs⟩
          have hc : c = Char.ofNat 61 := by
            injection hcs with h1 h2
          simp [hc]
  · intro s
    simp only [is_special_node, GNode.name, pgraph_root_name]
    simp only [String.data_append]
    simp [show (Char.ofNat 61) = ('=' : Char) from by decide,
      List.cons_append]
  · refine ⟨gEx2, [], 0, fun _ => false,
      ([0], 1, Function.update (fun _ => false) 0 true),
      .mk "alpha" 1 0 1 false [], rfl, rfl, by decide, by decide⟩
  · intro n fs h
    simp [display_line, h]
  · intro n fs h
    simp [display_line, h]

/-- Witness for C10: stepping from the partial-graph root onto its Back-trace
section forces depth 0. -/
theorem c10_special_node_classification_witness :
    is_special_node (GNode.mk "=f" 1 0 1 false []) = true ∧
      (∀ d2, graph_next_node_d
          (GNode.mk "root" 0 0 0 false
            [GNode.mk "=sect" 0 0 0 false [], GNode.mk "g" 1 0 1 false []])
          [] 5 (fun _ => false) =
          some ([0], d2, Function.update (fun _ => false) 5 true) → d2 = 0) ∧
      display_line (GNode.mk "=f" 1 0 1 false []) "x" = .sect "=f" :=
  ⟨(c10_special_node_classification.1 (GNode.mk "=f" 1 0 1 false [])).mpr
      ⟨"f".data, by decide⟩,
    fun d2 h => c10_special_node_classification.2.2.2.2.1 _ [] 5 _ [0] d2 _
      (GNode.mk "=sect" 0 0 0 false []) h rfl (by decide),
    c10_special_node_classification.2.2.2.2.2.2.1
      (GNode.mk "=f" 1 0 1 false []) "x" (by decide)⟩
